import Mathlib

/-!
Verification of the Merkle persistence core: the bounded in-memory
`MiniMerkleTree` (`core/lib/mini_merkle_tree/src/lib.rs`) and the
write-behind `ParallelDatabase` wrapper
(`core/lib/merkle_tree/src/storage/parallel.rs`).

Conventions of the embedding:
* machine integers (`usize`, `u64`) are modelled as `Nat`; the one place the
  source relies on release-mode wrapping subtraction (`sibling_index`) is
  reassociated into an equivalent non-truncating `Nat` expression;
* panics (`assert!`, out-of-bounds indexing) are modelled by `Option`:
  a function returns `none` exactly when the source aborts;
* the hash capability is a record of an (abstract) leaf hash and a pairwise
  compression function over an arbitrary hash type `α`.
-/

/-- `MAX_TREE_DEPTH` from the source: maximum supported depth of the tree. -/
def MAX_TREE_DEPTH : Nat := 32

/-- The hash capability (`Hasher` + `HashEmptySubtree`): a leaf hasher over
byte strings (bytes are modelled as `Nat`s), a pairwise compression function,
and the compile-time leaf size. -/
structure HasherM (α : Type) where
  leaf_size : Nat
  hash_bytes : List Nat → α
  compress : α → α → α

/-- `compute_empty_tree_hashes`: the table of the `MAX_TREE_DEPTH + 1` empty
subtree hashes, `iter::successors` of `compress hash hash` seeded with the
hash of the all-zero leaf. -/
def compute_empty_tree_hashes {α : Type} (h : HasherM α) : List α :=
  (List.range (MAX_TREE_DEPTH + 1)).map
    fun d => (fun hash => h.compress hash hash)^[d] (h.hash_bytes (List.replicate h.leaf_size 0))

/-- `empty_subtree_hash`: lookup in the memoized table `EMPTY_TREE_HASHES`. -/
def empty_subtree_hash {α : Type} [Inhabited α] (h : HasherM α) (depth : Nat) : α :=
  (compute_empty_tree_hashes h).getD depth default

/-- Fuel-indexed count of trailing binary zeros (64 = bit width of `usize`,
so that `trailing_zeros 0 = 64`, as for `usize::trailing_zeros`). -/
def trailing_zeros_aux : Nat → Nat → Nat
  | 0, _ => 0
  | fuel + 1, n => if n % 2 = 1 then 0 else trailing_zeros_aux fuel (n / 2) + 1

/-- `tree_depth_by_size`: `tree_size.trailing_zeros()`; equals `log2` on the
powers of two its `debug_assert!` demands. -/
def tree_depth_by_size (tree_size : Nat) : Nat :=
  trailing_zeros_aux 64 tree_size

/-- Fuel-indexed bit length (number of binary digits) of a `usize`. -/
def bit_length_aux : Nat → Nat → Nat
  | 0, _ => 0
  | fuel + 1, n => if n = 0 then 0 else bit_length_aux fuel (n / 2) + 1

/-- `usize::next_power_of_two`: the smallest power of two that is `≥ n`
(`1` for `n = 0`). -/
def next_power_of_two (n : Nat) : Nat :=
  2 ^ bit_length_aux 64 (n - 1)

/-- `usize::is_power_of_two`, via the trailing-zeros characterization
(equivalent to `count_ones() == 1` on `usize` values). -/
def is_power_of_two (n : Nat) : Bool :=
  n == 2 ^ trailing_zeros_aux 64 n

/-- The `MiniMerkleTree` state (the hasher, a pure value in the source, is
passed to each operation instead of being stored). -/
structure MiniMerkleTree (α : Type) where
  hashes : List α
  binary_tree_size : Nat
  start_index : Nat
  cache : List α
deriving DecidableEq

/-- `MiniMerkleTree::with_hasher`. `none` models the two `assert!` panics
(`min_tree_size` not a power of two; more than `2^32` items). -/
def with_hasher {α : Type} (h : HasherM α) (leaves : List (List Nat))
    (min_tree_size : Option Nat) : Option (MiniMerkleTree α) :=
  let hashes := leaves.map h.hash_bytes
  let size_ok :=
    match min_tree_size with
    | none => true
    | some m => is_power_of_two m
  let binary_tree_size :=
    match min_tree_size with
    | none => next_power_of_two hashes.length
    | some m => max m (next_power_of_two hashes.length)
  if size_ok = true ∧ tree_depth_by_size binary_tree_size ≤ MAX_TREE_DEPTH then
    some ⟨hashes, binary_tree_size, 0, []⟩
  else none

/-- `MiniMerkleTree::is_empty`. -/
def MiniMerkleTree.is_empty {α : Type} (t : MiniMerkleTree α) : Bool :=
  t.start_index == 0 && t.hashes.isEmpty

/-- `MiniMerkleTree::push`: append the leaf hash; double `binary_tree_size`
when the logical window overflows it. -/
def push {α : Type} (h : HasherM α) (t : MiniMerkleTree α) (leaf : List Nat) :
    MiniMerkleTree α :=
  let leaf_hash := h.hash_bytes leaf
  let hashes := t.hashes ++ [leaf_hash]
  if t.start_index + hashes.length > t.binary_tree_size then
    { t with hashes := hashes, binary_tree_size := t.binary_tree_size * 2 }
  else
    { t with hashes := hashes }

/-- Position, inside the deque at the current level, of the sibling of the
leaf at relative position `index`. The source computes
`((start_index + index) ^ 1) - start_index + start_index % 2` left to right
with wrapping `usize` arithmetic; `((start_index + index) ^^^ 1) +
start_index % 2` is always `≥ start_index` (the target is at or right of
`start_index`), so this reassociation is the same value without truncation. -/
def sibling_index (start_index index : Nat) : Nat :=
  ((start_index + index) ^^^ 1) + start_index % 2 - start_index

/-- One pass of `hashes[i] = compress(hashes[2*i], hashes[2*i+1])` followed by
truncation to half length. -/
def pair_compress {α : Type} (h : HasherM α) : List α → List α
  | a :: b :: rest => h.compress a b :: pair_compress h rest
  | _ => []

/-- Working state of the `for level in 0..depth` loop of
`compute_merkle_root_and_path`. -/
structure PathState (α : Type) where
  hashes : List α
  start_index : Nat
  end_index : Nat
  start_path : List α
  end_path : List α
deriving DecidableEq

/-- One iteration of the level loop of `compute_merkle_root_and_path`.
`none` models the `self.cache[level]` index panic. The source only appends to
the caller-requested paths; the model always records both (the root is
unaffected, and callers project out what they asked for). -/
def level_step {α : Type} [Inhabited α] (h : HasherM α) (cache : List α)
    (st : PathState α) (level : Nat) : Option (PathState α) :=
  let empty_hash_at_level := empty_subtree_hash h level
  let prepended : Option (List α) :=
    if st.start_index % 2 = 1 then
      match cache.get? level with
      | some c => some (c :: st.hashes)
      | none => none
    else some st.hashes
  prepended.bind fun hs0 =>
    let hs := if hs0.length % 2 = 1 then hs0 ++ [empty_hash_at_level] else hs0
    let sib := fun (index : Nat) => (hs.get? (sibling_index st.start_index index)).getD default
    some { hashes := pair_compress h hs
           start_index := st.start_index / 2
           end_index := (st.end_index + st.start_index % 2) / 2
           start_path := st.start_path ++ [sib 0]
           end_path := st.end_path ++ [sib st.end_index] }

/-- `MiniMerkleTree::compute_merkle_root_and_path`, returning
`(root, start_path, end_path)`. `none` models the two possible panics
(`cache[level]` and the final `hashes[0]` on an empty deque). -/
def compute_merkle_root_and_path {α : Type} [Inhabited α] (h : HasherM α)
    (t : MiniMerkleTree α) (end_index : Nat) : Option (α × List α × List α) :=
  let depth := tree_depth_by_size t.binary_tree_size
  ((List.range depth).foldlM (level_step h t.cache)
      ⟨t.hashes, t.start_index, end_index, [], []⟩).bind
    fun st =>
      match st.hashes with
      | root :: _ => some (root, st.start_path, st.end_path)
      | [] => none

/-- `MiniMerkleTree::merkle_root`. `none` models the `cache[depth]` panic. -/
def merkle_root {α : Type} [Inhabited α] (h : HasherM α) (t : MiniMerkleTree α) :
    Option α :=
  if t.hashes.length = 0 then
    let depth := tree_depth_by_size t.binary_tree_size
    if t.start_index = 0 then some (empty_subtree_hash h depth)
    else t.cache.get? depth
  else (compute_merkle_root_and_path h t 0).map (fun r => r.1)

/-- `MiniMerkleTree::merkle_root_and_path` (the `proof_for` surface). -/
def merkle_root_and_path {α : Type} [Inhabited α] (h : HasherM α)
    (t : MiniMerkleTree α) (index : Nat) : Option (α × List α) :=
  (compute_merkle_root_and_path h t index).map (fun r => (r.1, r.2.2))

/-- `MiniMerkleTree::trim_start`. `none` models the
"not enough leaves to cache" assertion and any panic inside the path
computation. -/
def trim_start {α : Type} [Inhabited α] (h : HasherM α) (t : MiniMerkleTree α)
    (count : Nat) : Option (MiniMerkleTree α) :=
  if count ≤ t.hashes.length then
    (compute_merkle_root_and_path h t count).map fun r =>
      { t with hashes := t.hashes.drop count
               start_index := t.start_index + count
               cache := r.2.2 ++ [r.1] }
  else none

/-- Hash of the (sub)tree of depth `lv` whose leaves are the slice
`[j * 2^lv, (j+1) * 2^lv)` of the full leaf-hash list `F`, absent leaves
standing for the zero leaf. Reference definition used to state functional
correctness of the path algorithm. -/
def subtree_hash {α : Type} [Inhabited α] (h : HasherM α) (F : List α) :
    Nat → Nat → α
  | 0, j => F.getD j (empty_subtree_hash h 0)
  | lv + 1, j => h.compress (subtree_hash h F lv (2 * j)) (subtree_hash h F lv (2 * j + 1))

/-- `d` rounds of pairwise compression (the naive full-tree construction). -/
def naive_levels {α : Type} (h : HasherM α) : Nat → List α → List α
  | 0, l => l
  | d + 1, l => naive_levels h d (pair_compress h l)

/-- Modelled from the spec: the naive full binary tree construction of the
given size, which fills absent leaves with `empty_subtree_hash 0` and combines
nodes pairwise with `compress` (spec §8, first quantified invariant). -/
def naive_merkle_root {α : Type} [Inhabited α] (h : HasherM α)
    (leaf_hashes : List α) (size : Nat) : α :=
  (naive_levels h (tree_depth_by_size size)
    (leaf_hashes ++ List.replicate (size - leaf_hashes.length) (empty_subtree_hash h 0))).headD
    default

/-- Invariant of the `MiniMerkleTree` stated by the spec (§3 Invariants):
`binary_tree_size` is a power of two, its depth is at most 32, and the
logical leaf window fits in the tree. -/
def TreeInvariant {α : Type} (t : MiniMerkleTree α) : Prop :=
  is_power_of_two t.binary_tree_size = true ∧
  tree_depth_by_size t.binary_tree_size ≤ 32 ∧
  t.start_index + t.hashes.length ≤ t.binary_tree_size

/-- The tree `t` represents the full (never-trimmed) leaf-hash list `F`:
its window is the suffix of `F` from `start_index` on, and the cache carries
the hash of the left-sibling subtree of the trimmed prefix at every level
where the path algorithm consults it, plus the whole-tree root at slot
`depth` when the window is empty. -/
def TreeRepr {α : Type} [Inhabited α] (h : HasherM α) (t : MiniMerkleTree α)
    (F : List α) : Prop :=
  t.hashes = F.drop t.start_index ∧
  F.length = t.start_index + t.hashes.length ∧
  (∀ lv, (t.start_index / 2 ^ lv) % 2 = 1 →
    t.cache.get? lv = some (subtree_hash h F lv (t.start_index / 2 ^ lv - 1))) ∧
  (t.hashes = [] → 0 < t.start_index →
    t.cache.get? (tree_depth_by_size t.binary_tree_size) =
      some (subtree_hash h F (tree_depth_by_size t.binary_tree_size) 0))

/-- The hash that `level_step` at level `i` appends to a path aimed at the
leaf at absolute position `s + e`, expressed over the full leaf list:
the subtree hash of the sibling `((s+e)/2^i) xor 1` when it falls inside the
padded deque, and the default (zero) hash otherwise. -/
def path_entry {α : Type} [Inhabited α] (h : HasherM α) (F : List α)
    (s N e i : Nat) : α :=
  let a := s / 2 ^ i
  let head := a - a % 2
  let b := (N - 1) / 2 ^ i + 1
  let padded_len := (b - head) + (b - head) % 2
  let p := (s + e) / 2 ^ i
  if p ^^^ 1 < head + padded_len then subtree_hash h F i (p ^^^ 1) else default

/-- The state of the level loop after `lv` levels, over the full leaf list
`F` (of length `N`), original start index `s` and requested end index `e`. -/
def inv_state {α : Type} [Inhabited α] (h : HasherM α) (F : List α)
    (s N e lv : Nat) : PathState α :=
  { hashes := (List.range' (s / 2 ^ lv) ((N - 1) / 2 ^ lv + 1 - s / 2 ^ lv)).map
      (subtree_hash h F lv)
    start_index := s / 2 ^ lv
    end_index := (s + e) / 2 ^ lv - s / 2 ^ lv
    start_path := (List.range lv).map (path_entry h F s N 0)
    end_path := (List.range lv).map (path_entry h F s N e) }

/-- The sequence of roots observed after each of a sequence of pushes. -/
def roots_seq {α : Type} [Inhabited α] (h : HasherM α) (t : MiniMerkleTree α) :
    List (List Nat) → List (Option α)
  | [] => []
  | w :: ws => merkle_root h (push h t w) :: roots_seq h (push h t w) ws

/-! ### The parallel (write-behind) database wrapper

Data model of `storage/parallel.rs`. The node/root/manifest payloads are
opaque to the wrapper, so they are modelled as records over `Nat` fields;
hash maps are modelled as association lists (`List.lookup`). -/

/-- Modelled from the spec (§3): a versioned node key; only the `version`
field is inspected by the wrapper, the nibble path is opaque. -/
structure NodeKey where
  version : Nat
  path : Nat
deriving DecidableEq

/-- Modelled from the spec (§3): a tree node, a tagged leaf/internal variant
with opaque payload. -/
inductive Node where
  | internal : Nat → Node
  | leaf : Nat → Node
deriving DecidableEq

/-- Modelled from the spec (§3): per-version root descriptor (opaque). -/
structure Root where
  data : Nat
deriving DecidableEq

/-- Modelled from the spec (§3): tree metadata record (opaque). -/
structure Manifest where
  version_count : Nat
deriving DecidableEq

/-- Modelled from the spec (§3): the single-version body of a patch —
an optional new root and the inserted/modified nodes. -/
structure PartialPatchSet where
  root : Option Root
  nodes : List (NodeKey × Node)
deriving DecidableEq

/-- `PartialPatchSet::empty()`. -/
def PartialPatchSet.empty : PartialPatchSet := ⟨none, []⟩

/-- Modelled from the spec (§3): a proposed update — new manifest, at most
one per-version partial patch, the targeted version, per-version stale keys. -/
structure PatchSet where
  manifest : Manifest
  patches_by_version : List (Nat × PartialPatchSet)
  updated_version : Option Nat
  stale_keys_by_version : List (Nat × List NodeKey)
deriving DecidableEq

/-- `PersistenceCommand`: what the worker needs to persist one patch. -/
structure PersistenceCommand where
  manifest : Manifest
  patch : PartialPatchSet
  stale_keys : List NodeKey
deriving DecidableEq

/-- The pure read-relevant state of `ParallelDatabase`: the fixed updated
version and the in-memory command queue, oldest first. The inner store and
the channel are modelled as parameters of the individual operations. -/
structure ParallelDatabase where
  updated_version : Nat
  commands : List PersistenceCommand
deriving DecidableEq

/-- Deserialization failure reported by the inner store (opaque payload). -/
structure DeserializeError where
  message : Nat
deriving DecidableEq

/-- `ParallelDatabase::try_tree_node`, parameterized by the inner store's
lookup. Scans the queue newest-to-oldest for the key, else delegates. -/
def try_tree_node (inner : NodeKey → Bool → Except DeserializeError (Option Node))
    (db : ParallelDatabase) (key : NodeKey) (is_leaf : Bool) :
    Except DeserializeError (Option Node) :=
  if key.version ≠ db.updated_version then inner key is_leaf
  else
    match db.commands.reverse.findSome? (fun c => c.patch.nodes.lookup key) with
    | some node => Except.ok (some node)
    | none => inner key is_leaf

/-- The newest enqueued command whose partial patch contains `key`, phrased
the way the spec does (the last of the commands containing the key). -/
def newest_command_with_key (commands : List PersistenceCommand)
    (key : NodeKey) : Option PersistenceCommand :=
  (commands.filter (fun c => (c.patch.nodes.lookup key).isSome)).getLast?

/-- The body of the first loop of `tree_nodes` for one command `c`: slots
already filled are skipped, the rest are looked up in `c`'s partial patch. -/
def overlay_step (keys : List (NodeKey × Bool)) (nodes : List (Option Node))
    (c : PersistenceCommand) : List (Option Node) :=
  (keys.zip nodes).map fun kn =>
    match kn.2 with
    | some n => some n
    | none => c.patch.nodes.lookup kn.1.1

/-- `ParallelDatabase::tree_nodes`, parameterized by the inner store's batch
lookup: the overlay pass fills each slot from the newest command containing
the key, then the missing keys are loaded from the inner store in one batch
and scattered back by index. -/
def tree_nodes (inner_batch : List (NodeKey × Bool) → List (Option Node))
    (db : ParallelDatabase) (keys : List (NodeKey × Bool)) : List (Option Node) :=
  let nodes0 : List (Option Node) := keys.map (fun _ => none)
  let nodes := db.commands.reverse.foldl (overlay_step keys) nodes0
  let enumerated := (List.range keys.length).zip keys
  let missing := enumerated.filter fun ik => ((nodes.get? ik.1).getD none).isNone
  let inner_nodes := inner_batch (missing.map (fun ik => ik.2))
  ((missing.map (fun ik => ik.1)).zip inner_nodes).foldl
    (fun ns inode => ns.set inode.1 inode.2) nodes

/-- `ParallelDatabase::apply_patch`. `none` models the assertion panics and
the worker-death abort. `inflight` models `Arc::strong_count(patch) > 1`
(the queue GC predicate) and `send_ok` whether the channel `send` succeeds. -/
def apply_patch (inflight : PersistenceCommand → Bool) (send_ok : Bool)
    (db : ParallelDatabase) (patch : PatchSet) : Option ParallelDatabase :=
  let finish : List PersistenceCommand → PartialPatchSet → Option ParallelDatabase :=
    fun commands partial_patch =>
      if patch.stale_keys_by_version = [] ∨
          (patch.stale_keys_by_version.length = 1 ∧
            (patch.stale_keys_by_version.lookup db.updated_version).isSome) then
        let stale_keys := (patch.stale_keys_by_version.lookup db.updated_version).getD []
        let command : PersistenceCommand := ⟨patch.manifest, partial_patch, stale_keys⟩
        if send_ok then some { db with commands := commands ++ [command] }
        else none
      else none
  match patch.updated_version with
  | some updated_version =>
    if updated_version = db.updated_version then
      if patch.patches_by_version.length = 1 then
        let commands := db.commands.filter inflight
        match patch.patches_by_version.lookup updated_version with
        | some partial_patch => finish commands partial_patch
        | none => none
      else none
    else none
  | none =>
    if patch.patches_by_version = [] then finish db.commands PartialPatchSet.empty
    else none

/-- The preconditions of `apply_patch` as the spec states them (§4.4). -/
def apply_patch_preconditions (db : ParallelDatabase) (patch : PatchSet) : Prop :=
  (match patch.updated_version with
   | some updated_version =>
     updated_version = db.updated_version ∧
     patch.patches_by_version.length = 1 ∧
     (patch.patches_by_version.lookup updated_version).isSome
   | none => patch.patches_by_version = []) ∧
  (patch.stale_keys_by_version = [] ∨
    (patch.stale_keys_by_version.length = 1 ∧
      (patch.stale_keys_by_version.lookup db.updated_version).isSome))

/-- The `PatchSet` that `run_persistence` reconstitutes from a command
before applying it to the inner store. -/
def reconstituted_patch (updated_version : Nat) (c : PersistenceCommand) : PatchSet :=
  { manifest := c.manifest
    patches_by_version := [(updated_version, c.patch)]
    updated_version := some updated_version
    stale_keys_by_version := [(updated_version, c.stale_keys)] }

/-- Two-actor state of the wrapper + persistence worker: the inner store,
the (ghost) list of all commands ever enqueued, and the commands not yet
applied by the worker, oldest first. -/
structure WorkerState (σ : Type) where
  inner : σ
  enqueued : List PersistenceCommand
  pending : List PersistenceCommand

/-- Interleaving semantics of the wrapper and its persistence worker:
the foreground enqueues commands at the back; the worker (`run_persistence`)
serially takes the oldest pending command, reconstitutes its `PatchSet` and
applies it to the inner store. -/
inductive PersistenceStep {σ : Type} (applyP : σ → PatchSet → σ)
    (updated_version : Nat) : WorkerState σ → WorkerState σ → Prop
  | enqueue (s : WorkerState σ) (c : PersistenceCommand) :
    PersistenceStep applyP updated_version s
      ⟨s.inner, s.enqueued ++ [c], s.pending ++ [c]⟩
  | persist (s : WorkerState σ) (c : PersistenceCommand)
      (rest : List PersistenceCommand) :
    s.pending = c :: rest →
    PersistenceStep applyP updated_version s
      ⟨applyP s.inner (reconstituted_patch updated_version c), s.enqueued, rest⟩

/-- A small concrete hasher over `Nat` used by witnesses and counterexamples.
The modulus keeps the memoized empty-subtree table small enough to evaluate. -/
def natHasher : HasherM Nat :=
  { leaf_size := 2
    hash_bytes := fun l => (l.foldl (fun a b => 31 * a + b + 1) 7) % 1000
    compress := fun a b => (31 * a + 7 * b + 3) % 1000 }

/-- Two concrete leaves, for witnesses. -/
def leaves2 : List (List Nat) := [[1, 2], [3, 4]]

/-- Four concrete leaves, for witnesses. -/
def leaves4 : List (List Nat) := [[1, 2], [3, 4], [5, 6], [7, 8]]

/-- The tree over `leaves2` (size 2, untrimmed). -/
def t2 : MiniMerkleTree Nat := ⟨leaves2.map natHasher.hash_bytes, 2, 0, []⟩

/-- The tree over `leaves4` (size 4, untrimmed). -/
def t4 : MiniMerkleTree Nat := ⟨leaves4.map natHasher.hash_bytes, 4, 0, []⟩

/-- A fully trimmed tree of the maximum supported size `2^32`. -/
def t_full : MiniMerkleTree Nat := ⟨[], 2 ^ 32, 2 ^ 32, []⟩

/-- A concrete persistence command, for witnesses. -/
def c0 : PersistenceCommand := ⟨⟨7⟩, PartialPatchSet.empty, []⟩

/-- A concrete node key at version 7, for witnesses. -/
def k7 : NodeKey := ⟨7, 1⟩

/-- A concrete queue state at updated version 7 whose single command carries
node `k7`, for witnesses. -/
def db7 : ParallelDatabase :=
  ⟨7, [⟨⟨7⟩, ⟨some ⟨5⟩, [(k7, Node.leaf 3)]⟩, []⟩]⟩

-- Spec §8 end-to-end scenario 1: three leaves with `min_tree_size = 4`;
-- the root is `compress(compress(H L0, H L1), compress(H L2, empty 0))`.
example :
    (with_hasher natHasher [[1, 2], [3, 4], [5, 6]] (some 4)).bind
        (merkle_root natHasher) =
      some (natHasher.compress
        (natHasher.compress (natHasher.hash_bytes [1, 2]) (natHasher.hash_bytes [3, 4]))
        (natHasher.compress (natHasher.hash_bytes [5, 6]) (empty_subtree_hash natHasher 0))) := by
  decide

-- Spec §8 scenario 2: `proof_for 1` returns `[H L0, compress(H L2, empty 0)]`.
example :
    (with_hasher natHasher [[1, 2], [3, 4], [5, 6]] (some 4)).bind
        (fun t => merkle_root_and_path natHasher t 1) =
      some (((with_hasher natHasher [[1, 2], [3, 4], [5, 6]] (some 4)).bind
          (merkle_root natHasher)).getD 0,
        [natHasher.hash_bytes [1, 2],
         natHasher.compress (natHasher.hash_bytes [5, 6]) (empty_subtree_hash natHasher 0)]) := by
  decide

-- Spec §8 scenario 4: trimming 2 of 4 leaves preserves the root.
example :
    ((with_hasher natHasher [[1, 2], [3, 4], [5, 6], [7, 8]] none).bind
        fun t => (trim_start natHasher t 2).bind (merkle_root natHasher)) =
      ((with_hasher natHasher [[1, 2], [3, 4], [5, 6], [7, 8]] none).bind
        (merkle_root natHasher)) := by
  decide

-- Scenario 3 flavour: pushing a fifth leaf doubles the size to 8.
example :
    ((with_hasher natHasher [[1, 2], [3, 4], [5, 6], [7, 8]] none).map
        fun t => (push natHasher t [9, 10]).binary_tree_size) = some 8 := by
  decide


/-! ### Arithmetic facts about the size helpers -/

theorem trailing_zeros_aux_pow (fuel : Nat) :
    ∀ k, k ≤ fuel → trailing_zeros_aux fuel (2 ^ k) = k := by
  induction fuel with
  | zero =>
    intro k hk
    interval_cases k
    rfl
  | succ fuel ih =>
    intro k hk
    match k with
    | 0 => rfl
    | k + 1 =>
      have h2 : 2 ^ (k + 1) % 2 = 0 := by
        simp [Nat.pow_succ, Nat.mul_mod_left]
      have h3 : 2 ^ (k + 1) / 2 = 2 ^ k := by
        rw [Nat.pow_succ]
        exact Nat.mul_div_cancel _ (by norm_num)
      simp only [trailing_zeros_aux, h2, h3]
      simp [ih k (by omega)]

theorem tree_depth_by_size_pow (k : Nat) (hk : k ≤ 64) :
    tree_depth_by_size (2 ^ k) = k :=
  trailing_zeros_aux_pow 64 k hk

theorem trailing_zeros_aux_le (fuel : Nat) : ∀ n, trailing_zeros_aux fuel n ≤ fuel := by
  induction fuel with
  | zero => intro n; simp [trailing_zeros_aux]
  | succ fuel ih =>
    intro n
    simp only [trailing_zeros_aux]
    split
    · omega
    · have := ih (n / 2)
      omega

theorem is_power_of_two_spec (n : Nat) (h : is_power_of_two n = true) :
    ∃ k, k ≤ 64 ∧ n = 2 ^ k := by
  refine ⟨trailing_zeros_aux 64 n, trailing_zeros_aux_le 64 n, ?_⟩
  simpa [is_power_of_two] using h

theorem is_power_of_two_pow (k : Nat) (hk : k ≤ 64) : is_power_of_two (2 ^ k) = true := by
  simp [is_power_of_two, trailing_zeros_aux_pow 64 k hk]

/-- `is_power_of_two` exposes the size as `2 ^ tree_depth_by_size`. -/
theorem eq_pow_depth_of_is_power_of_two (n : Nat) (h : is_power_of_two n = true) :
    n = 2 ^ tree_depth_by_size n := by
  simpa [is_power_of_two, tree_depth_by_size] using h

theorem bit_length_aux_le (fuel : Nat) : ∀ n, bit_length_aux fuel n ≤ fuel := by
  induction fuel with
  | zero => intro n; simp [bit_length_aux]
  | succ fuel ih =>
    intro n
    simp only [bit_length_aux]
    split
    · omega
    · have := ih (n / 2)
      omega

theorem lt_pow_bit_length_aux (fuel : Nat) :
    ∀ n, n < 2 ^ fuel → n < 2 ^ bit_length_aux fuel n := by
  induction fuel with
  | zero =>
    intro n hn
    simpa [bit_length_aux] using hn
  | succ fuel ih =>
    intro n hn
    simp only [bit_length_aux]
    split
    · simp_all
    · have hd : n / 2 < 2 ^ fuel := by
        rw [Nat.div_lt_iff_lt_mul (by norm_num)]
        calc n < 2 ^ (fuel + 1) := hn
        _ = 2 ^ fuel * 2 := by rw [Nat.pow_succ]
      have := ih (n / 2) hd
      have : n / 2 + 1 ≤ 2 ^ bit_length_aux fuel (n / 2) := this
      calc n ≤ 2 * (n / 2) + 1 := by omega
      _ < 2 * (n / 2 + 1) := by omega
      _ ≤ 2 * 2 ^ bit_length_aux fuel (n / 2) := by omega
      _ = 2 ^ (bit_length_aux fuel (n / 2) + 1) := by rw [Nat.pow_succ]; ring

theorem bit_length_aux_saturates (fuel : Nat) :
    ∀ n, 2 ^ fuel ≤ n → bit_length_aux fuel n = fuel := by
  induction fuel with
  | zero => intro n _; simp [bit_length_aux]
  | succ fuel ih =>
    intro n hn
    have hpos : n ≠ 0 := by
      have : (0 : Nat) < 2 ^ (fuel + 1) := Nat.two_pow_pos (fuel + 1)
      omega
    simp only [bit_length_aux, hpos, if_false]
    rw [ih (n / 2) ?_]
    rw [Nat.le_div_iff_mul_le (by norm_num)]
    calc 2 ^ fuel * 2 = 2 ^ (fuel + 1) := by rw [Nat.pow_succ]
    _ ≤ n := hn

theorem le_next_power_of_two (n : Nat) (hn : n ≤ 2 ^ 64) :
    n ≤ next_power_of_two n := by
  unfold next_power_of_two
  have := lt_pow_bit_length_aux 64 (n - 1) (by omega)
  omega

/-! ### Facts about `xor 1` (the sibling position) -/

theorem two_mul_xor_one (m : Nat) : (2 * m) ^^^ 1 = 2 * m + 1 := by
  have h1 : (1 : Nat) = Nat.bit true 0 := by simp [Nat.bit_val]
  have h2 : (2 * m : Nat) = Nat.bit false m := by simp [Nat.bit_val]
  rw [h2, h1, Nat.xor_bit]
  simp [Nat.bit_val]

theorem two_mul_add_one_xor_one (m : Nat) : (2 * m + 1) ^^^ 1 = 2 * m := by
  have h1 : (1 : Nat) = Nat.bit true 0 := by simp [Nat.bit_val]
  have h2 : (2 * m + 1 : Nat) = Nat.bit true m := by simp [Nat.bit_val]
  rw [h2, h1, Nat.xor_bit]
  simp [Nat.bit_val]

theorem xor_one_of_odd (p : Nat) (hp : p % 2 = 1) : p ^^^ 1 = p - 1 := by
  have hd : p = 2 * (p / 2) + 1 := by omega
  rw [hd, two_mul_add_one_xor_one]
  omega

theorem xor_one_of_even (p : Nat) (hp : p % 2 = 0) : p ^^^ 1 = p + 1 := by
  have hd : p = 2 * (p / 2) := by omega
  rw [hd, two_mul_xor_one]

theorem xor_one_cases (p : Nat) : p ^^^ 1 = if p % 2 = 1 then p - 1 else p + 1 := by
  rcases Nat.mod_two_eq_zero_or_one p with hp | hp
  · rw [xor_one_of_even p hp]; simp [hp]
  · rw [xor_one_of_odd p hp]; simp [hp]

/-! ### Facts about `pair_compress` -/

theorem pair_compress_cons_cons {α : Type} (h : HasherM α) (a b : α) (l : List α) :
    pair_compress h (a :: b :: l) = h.compress a b :: pair_compress h l := rfl

theorem pair_compress_append {α : Type} (h : HasherM α) :
    ∀ (l₁ : List α), l₁.length % 2 = 0 → ∀ l₂,
      pair_compress h (l₁ ++ l₂) = pair_compress h l₁ ++ pair_compress h l₂
  | [], _, l₂ => by simp [pair_compress]
  | [a], hl, l₂ => by simp at hl
  | a :: b :: t, hl, l₂ => by
    have ih := pair_compress_append h t
      (by simp only [List.length_cons] at hl; omega) l₂
    simp [pair_compress_cons_cons, ih]

theorem pair_compress_map_range' {α : Type} (h : HasherM α) (g : Nat → α) :
    ∀ (k m : Nat),
      pair_compress h ((List.range' (2 * m) (2 * k)).map g) =
        (List.range' m k).map fun j => h.compress (g (2 * j)) (g (2 * j + 1)) := by
  intro k
  induction k with
  | zero => intro m; simp [pair_compress]
  | succ k ih =>
    intro m
    have hr : List.range' (2 * m) (2 * (k + 1)) =
        2 * m :: (2 * m + 1) :: List.range' (2 * (m + 1)) (2 * k) := by
      have e1 : 2 * (k + 1) = (2 * k) + 1 + 1 := by ring
      have e2 : 2 * (m + 1) = 2 * m + 1 + 1 := by ring
      rw [e1, List.range'_succ, List.range'_succ, e2]
    rw [hr]
    simp only [List.map_cons, pair_compress_cons_cons, ih (m + 1), List.range'_succ,
      List.map_cons]

/-! ### Facts about the empty-subtree table and `subtree_hash` -/

theorem empty_subtree_hash_iter {α : Type} [Inhabited α] (h : HasherM α)
    (d : Nat) (hd : d ≤ 32) :
    empty_subtree_hash h d =
      (fun x => h.compress x x)^[d] (h.hash_bytes (List.replicate h.leaf_size 0)) := by
  have hlt : d < MAX_TREE_DEPTH + 1 := by unfold MAX_TREE_DEPTH; omega
  unfold empty_subtree_hash compute_empty_tree_hashes
  rw [List.getD_eq_getElem?_getD, List.getElem?_map, List.getElem?_range hlt]
  rfl

theorem empty_subtree_hash_succ {α : Type} [Inhabited α] (h : HasherM α)
    (d : Nat) (hd : d + 1 ≤ 32) :
    empty_subtree_hash h (d + 1) =
      h.compress (empty_subtree_hash h d) (empty_subtree_hash h d) := by
  rw [empty_subtree_hash_iter h d (by omega), empty_subtree_hash_iter h (d + 1) hd,
    Function.iterate_succ_apply']

theorem subtree_hash_absent {α : Type} [Inhabited α] (h : HasherM α) (F : List α) :
    ∀ lv j, lv ≤ 32 → F.length ≤ j * 2 ^ lv →
      subtree_hash h F lv j = empty_subtree_hash h lv := by
  intro lv
  induction lv with
  | zero =>
    intro j _ hj
    simp only [subtree_hash]
    exact List.getD_eq_default _ _ (by simpa using hj)
  | succ lv ih =>
    intro j hlv hj
    have h1 : F.length ≤ 2 * j * 2 ^ lv := by
      calc F.length ≤ j * 2 ^ (lv + 1) := hj
      _ = 2 * j * 2 ^ lv := by ring
    have h2 : F.length ≤ (2 * j + 1) * 2 ^ lv := by
      calc F.length ≤ 2 * j * 2 ^ lv := h1
      _ ≤ (2 * j + 1) * 2 ^ lv := by
        have : (2 * j) * 2 ^ lv ≤ (2 * j + 1) * 2 ^ lv :=
          Nat.mul_le_mul_right _ (by omega)
        omega
    simp only [subtree_hash]
    rw [ih (2 * j) (by omega) h1, ih (2 * j + 1) (by omega) h2,
      empty_subtree_hash_succ h lv hlv]

theorem subtree_hash_append {α : Type} [Inhabited α] (h : HasherM α) (F G : List α) :
    ∀ lv j, (j + 1) * 2 ^ lv ≤ F.length →
      subtree_hash h (F ++ G) lv j = subtree_hash h F lv j := by
  intro lv
  induction lv with
  | zero =>
    intro j hj
    simp only [subtree_hash]
    have hlt : j < F.length := by simpa using hj
    rw [List.getD_eq_getElem?_getD, List.getD_eq_getElem?_getD]
    simp [List.getElem?_append, hlt]
  | succ lv ih =>
    intro j hj
    have h1 : (2 * j + 1) * 2 ^ lv ≤ F.length := by
      calc (2 * j + 1) * 2 ^ lv ≤ (2 * j + 2) * 2 ^ lv :=
        Nat.mul_le_mul_right _ (by omega)
      _ = (j + 1) * 2 ^ (lv + 1) := by ring
      _ ≤ F.length := hj
    have h2 : (2 * j + 1 + 1) * 2 ^ lv ≤ F.length := by
      calc (2 * j + 1 + 1) * 2 ^ lv = (j + 1) * 2 ^ (lv + 1) := by ring
      _ ≤ F.length := hj
    simp only [subtree_hash]
    rw [ih (2 * j) h1, ih (2 * j + 1) h2]

/-! ### List helpers for mapped ranges -/

theorem get?_map_range' {α : Type} (g : Nat → α) (a n i : Nat) :
    ((List.range' a n).map g).get? i = if i < n then some (g (a + i)) else none := by
  rcases Nat.lt_or_ge i n with hi | hi
  · rw [if_pos hi, List.get?_eq_getElem?, List.getElem?_map,
      List.getElem?_range' a 1 hi]
    simp
  · rw [if_neg (by omega), List.get?_eq_getElem?, List.getElem?_eq_none]
    simp [hi]

theorem map_range'_cons {α : Type} (g : Nat → α) (a n : Nat) (ha : 0 < a) :
    g (a - 1) :: (List.range' a n).map g = (List.range' (a - 1) (n + 1)).map g := by
  have hstep : a - 1 + 1 = a := by omega
  have hr : List.range' (a - 1) (n + 1) = (a - 1) :: List.range' a n := by
    rw [List.range'_succ, hstep]
  rw [hr, List.map_cons]

theorem map_range'_concat {α : Type} (g : Nat → α) (a n : Nat) :
    (List.range' a n).map g ++ [g (a + n)] = (List.range' a (n + 1)).map g := by
  rw [List.range'_concat]
  simp

/-- What the closure `push_sibling_hash` appends for a target leaf at
absolute position `q ≥ a`, over a deque holding `g` of the positions
`[head, head + L)`. -/
theorem sib_lookup {α : Type} [Inhabited α] (g : Nat → α) (a head L q : Nat)
    (hhead : head = a - a % 2) (hq : a ≤ q) :
    (((List.range' head L).map g).get? (sibling_index a (q - a))).getD default =
      if q ^^^ 1 < head + L then g (q ^^^ 1) else default := by
  have haq : a + (q - a) = q := by omega
  rcases Nat.mod_two_eq_zero_or_one q with hq2 | hq2
  · have hx : q ^^^ 1 = q + 1 := xor_one_of_even q hq2
    have h1 : sibling_index a (q - a) = q + 1 - head := by
      unfold sibling_index
      rw [haq, hx]
      omega
    rw [h1, get?_map_range', hx]
    rcases Nat.lt_or_ge (q + 1 - head) L with hlt | hge
    · rw [if_pos hlt, if_pos (by omega)]
      simp only [Option.getD_some]
      congr 1
      omega
    · rw [if_neg (by omega), if_neg (by omega)]
      rfl
  · have hx : q ^^^ 1 = q - 1 := xor_one_of_odd q hq2
    have h1 : sibling_index a (q - a) = q - 1 - head := by
      unfold sibling_index
      rw [haq, hx]
      omega
    rw [h1, get?_map_range', hx]
    rcases Nat.lt_or_ge (q - 1 - head) L with hlt | hge
    · rw [if_pos hlt, if_pos (by omega)]
      simp only [Option.getD_some]
      congr 1
      omega
    · rw [if_neg (by omega), if_neg (by omega)]
      rfl

/-- Padding an odd-length deque of subtree hashes with the empty-subtree hash
extends the covered range by one position. -/
theorem padded_deque_eq {α : Type} [Inhabited α] (h : HasherM α) (F : List α)
    (lv head L : Nat) (hlv : lv ≤ 32) (habs : F.length ≤ (head + L) * 2 ^ lv) :
    (if ((List.range' head L).map (subtree_hash h F lv)).length % 2 = 1 then
        ((List.range' head L).map (subtree_hash h F lv)) ++ [empty_subtree_hash h lv]
      else ((List.range' head L).map (subtree_hash h F lv))) =
    (List.range' head (L + L % 2)).map (subtree_hash h F lv) := by
  simp only [List.length_map, List.length_range']
  rcases Nat.mod_two_eq_zero_or_one L with hL | hL
  · rw [if_neg (by omega), hL, Nat.add_zero]
  · rw [if_pos hL,
      show empty_subtree_hash h lv = subtree_hash h F lv (head + L) from
        (subtree_hash_absent h F lv (head + L) hlv habs).symm,
      map_range'_concat, hL]

/-- One pairwise-compression pass turns a level-`lv` slice into the
level-`lv+1` slice of half the indices. -/
theorem pair_compress_subtree {α : Type} [Inhabited α] (h : HasherM α) (F : List α)
    (lv head L a' K : Nat) (hh : head = 2 * a') (hL : L = 2 * K) :
    pair_compress h ((List.range' head L).map (subtree_hash h F lv)) =
      (List.range' a' K).map (subtree_hash h F (lv + 1)) := by
  subst hh hL
  rw [pair_compress_map_range']
  exact List.map_congr_left fun j _ => rfl

/-- The level loop body maps the level-`lv` invariant state to the
level-`lv+1` invariant state (explicit-record form). -/
theorem level_step_eq {α : Type} [Inhabited α] (h : HasherM α) (F cache : List α)
    (s N e lv : Nat) (sp ep : List α)
    (hsN : s < N) (hF : F.length = N) (hlv : lv ≤ 32)
    (hc : (s / 2 ^ lv) % 2 = 1 →
      cache.get? lv = some (subtree_hash h F lv (s / 2 ^ lv - 1))) :
    level_step h cache
      ⟨(List.range' (s / 2 ^ lv) ((N - 1) / 2 ^ lv + 1 - s / 2 ^ lv)).map
          (subtree_hash h F lv),
       s / 2 ^ lv, (s + e) / 2 ^ lv - s / 2 ^ lv, sp, ep⟩ lv =
      some
        ⟨(List.range' (s / 2 ^ (lv + 1))
            ((N - 1) / 2 ^ (lv + 1) + 1 - s / 2 ^ (lv + 1))).map
            (subtree_hash h F (lv + 1)),
         s / 2 ^ (lv + 1), (s + e) / 2 ^ (lv + 1) - s / 2 ^ (lv + 1),
         sp ++ [path_entry h F s N 0 lv], ep ++ [path_entry h F s N e lv]⟩ := by
  have hpow : 0 < 2 ^ lv := Nat.two_pow_pos lv
  have haB : s / 2 ^ lv ≤ (N - 1) / 2 ^ lv := Nat.div_le_div_right (by omega)
  have hap : s / 2 ^ lv ≤ (s + e) / 2 ^ lv := Nat.div_le_div_right (by omega)
  have hs2 : s / 2 ^ (lv + 1) = s / 2 ^ lv / 2 := by
    rw [Nat.pow_succ, ← Nat.div_div_eq_div_mul]
  have hN2 : (N - 1) / 2 ^ (lv + 1) = (N - 1) / 2 ^ lv / 2 := by
    rw [Nat.pow_succ, ← Nat.div_div_eq_div_mul]
  have hp2 : (s + e) / 2 ^ (lv + 1) = (s + e) / 2 ^ lv / 2 := by
    rw [Nat.pow_succ, ← Nat.div_div_eq_div_mul]
  have hbN : N ≤ ((N - 1) / 2 ^ lv + 1) * 2 ^ lv := by
    have h1 : N - 1 < ((N - 1) / 2 ^ lv + 1) * 2 ^ lv :=
      (Nat.div_lt_iff_lt_mul hpow).mp (Nat.lt_succ_self _)
    omega
  rw [hs2, hN2, hp2]
  simp only [level_step, path_entry, Nat.add_zero]
  obtain ⟨a, ha⟩ : ∃ x, s / 2 ^ lv = x := ⟨_, rfl⟩
  obtain ⟨B, hB⟩ : ∃ x, (N - 1) / 2 ^ lv = x := ⟨_, rfl⟩
  obtain ⟨p, hp⟩ : ∃ x, (s + e) / 2 ^ lv = x := ⟨_, rfl⟩
  simp only [ha, hB, hp] at haB hap hbN hc ⊢
  rcases Nat.mod_two_eq_zero_or_one a with hpar | hpar
  · -- even start index: no prepend, head = a
    rw [if_neg (by omega)]
    rw [hpar, Nat.sub_zero]
    simp only [Option.some_bind]
    rw [padded_deque_eq h F lv a (B + 1 - a) (by omega)
      (by
        rw [hF]
        calc N ≤ (B + 1) * 2 ^ lv := hbN
        _ = (a + (B + 1 - a)) * 2 ^ lv := by
          congr 1
          omega)]
    have hhead1 : a = a - a % 2 := by omega
    have hstart := sib_lookup (subtree_hash h F lv) a a
      ((B + 1 - a) + (B + 1 - a) % 2) a hhead1 (Nat.le_refl _)
    rw [Nat.sub_self] at hstart
    have hend := sib_lookup (subtree_hash h F lv) a a
      ((B + 1 - a) + (B + 1 - a) % 2) p hhead1 hap
    have hh1 : a = 2 * (a / 2) := by omega
    have hL1 : (B + 1 - a) + (B + 1 - a) % 2 = 2 * (B / 2 + 1 - a / 2) := by omega
    rw [hstart, hend,
      pair_compress_subtree h F lv a ((B + 1 - a) + (B + 1 - a) % 2)
        (a / 2) (B / 2 + 1 - a / 2) hh1 hL1]
    simp only [Option.some.injEq, PathState.mk.injEq, true_and, and_true]
    omega
  · -- odd start index: prepend cache[lv], head = a - 1
    rw [if_pos hpar, hc hpar]
    rw [hpar]
    simp only [Option.some_bind]
    rw [map_range'_cons (subtree_hash h F lv) a (B + 1 - a) (by omega),
      show B + 1 - a + 1 = B + 1 - (a - 1) by omega]
    rw [padded_deque_eq h F lv (a - 1) (B + 1 - (a - 1)) (by omega)
      (by
        rw [hF]
        calc N ≤ (B + 1) * 2 ^ lv := hbN
        _ = (a - 1 + (B + 1 - (a - 1))) * 2 ^ lv := by
          congr 1
          omega)]
    have hhead2 : a - 1 = a - a % 2 := by omega
    have hstart := sib_lookup (subtree_hash h F lv) a (a - 1)
      ((B + 1 - (a - 1)) + (B + 1 - (a - 1)) % 2) a hhead2 (Nat.le_refl _)
    rw [Nat.sub_self] at hstart
    have hend := sib_lookup (subtree_hash h F lv) a (a - 1)
      ((B + 1 - (a - 1)) + (B + 1 - (a - 1)) % 2) p hhead2 hap
    have hh2 : a - 1 = 2 * (a / 2) := by omega
    have hL2 : (B + 1 - (a - 1)) + (B + 1 - (a - 1)) % 2 = 2 * (B / 2 + 1 - a / 2) := by
      omega
    rw [hstart, hend,
      pair_compress_subtree h F lv (a - 1) ((B + 1 - (a - 1)) + (B + 1 - (a - 1)) % 2)
        (a / 2) (B / 2 + 1 - a / 2) hh2 hL2]
    simp only [Option.some.injEq, PathState.mk.injEq, true_and, and_true]
    omega

/-- Iterating the level loop from level `lv` for `d` levels transports the
invariant state. -/
theorem foldlM_level_step_inv {α : Type} [Inhabited α] (h : HasherM α)
    (F cache : List α) (s N e : Nat) (hsN : s < N) (hF : F.length = N)
    (hcache : ∀ lv, (s / 2 ^ lv) % 2 = 1 →
      cache.get? lv = some (subtree_hash h F lv (s / 2 ^ lv - 1))) :
    ∀ d lv, lv + d ≤ 33 →
      (List.range' lv d).foldlM (level_step h cache) (inv_state h F s N e lv) =
        some (inv_state h F s N e (lv + d)) := by
  intro d
  induction d with
  | zero => intro lv _; simp
  | succ d ih =>
    intro lv hlv
    rw [List.range'_succ, List.foldlM_cons]
    have hstep : level_step h cache (inv_state h F s N e lv) lv =
        some (inv_state h F s N e (lv + 1)) := by
      have hls := level_step_eq h F cache s N e lv
        ((List.range lv).map (path_entry h F s N 0))
        ((List.range lv).map (path_entry h F s N e)) hsN hF (by omega) (hcache lv)
      simpa [inv_state, List.range_succ] using hls
    rw [hstep]
    rw [show lv + (d + 1) = (lv + 1) + d by omega]
    exact ih (lv + 1) (by omega)

/-- The window of a list is the mapped level-0 slice of subtree hashes. -/
theorem drop_eq_map_range' {α : Type} [Inhabited α] (h : HasherM α) (F : List α)
    (s : Nat) (hs : s ≤ F.length) :
    F.drop s = (List.range' s (F.length - s)).map (subtree_hash h F 0) := by
  apply List.ext_getElem?
  intro i
  rw [List.getElem?_drop]
  rcases Nat.lt_or_ge i (F.length - s) with hi | hi
  · have hsi : s + i < F.length := by omega
    rw [List.getElem?_map, List.getElem?_range' s 1 hi]
    simp only [Nat.one_mul, Option.map_some']
    rw [List.getElem?_eq_getElem hsi]
    congr 1
    simp only [subtree_hash]
    rw [List.getD_eq_getElem?_getD, List.getElem?_eq_getElem hsi]
    rfl
  · rw [List.getElem?_eq_none (by omega),
      List.getElem?_eq_none (by simp [List.length_range']; omega)]

/-- Functional correctness of `compute_merkle_root_and_path` over a valid
trimmed window: the root is the subtree hash of the whole (padded) tree, and
the collected paths are the `path_entry` sequences. -/
theorem compute_eq_subtree {α : Type} [Inhabited α] (h : HasherM α) (F : List α)
    (t : MiniMerkleTree α) (e depth : Nat)
    (hdepth : tree_depth_by_size t.binary_tree_size = depth)
    (hsize : t.binary_tree_size = 2 ^ depth)
    (hdle : depth ≤ 33)
    (hne : t.hashes ≠ [])
    (hwin : t.hashes = F.drop t.start_index)
    (hlen : F.length = t.start_index + t.hashes.length)
    (hbound : F.length ≤ t.binary_tree_size)
    (hcache : ∀ lv, (t.start_index / 2 ^ lv) % 2 = 1 →
      t.cache.get? lv = some (subtree_hash h F lv (t.start_index / 2 ^ lv - 1))) :
    compute_merkle_root_and_path h t e =
      some (subtree_hash h F depth 0,
        (List.range depth).map (path_entry h F t.start_index F.length 0),
        (List.range depth).map (path_entry h F t.start_index F.length e)) := by
  have hn : 0 < t.hashes.length := List.length_pos.mpr hne
  have hsN : t.start_index < F.length := by omega
  have hNb : F.length ≤ 2 ^ depth := by rw [← hsize]; exact hbound
  have hinit : (⟨t.hashes, t.start_index, e, [], []⟩ : PathState α) =
      inv_state h F t.start_index F.length e 0 := by
    unfold inv_state
    simp only [pow_zero, Nat.div_one, List.range_zero, List.map_nil]
    have hE : F.length - 1 + 1 - t.start_index = F.length - t.start_index := by omega
    rw [hE]
    have hwin2 := drop_eq_map_range' h F t.start_index (by omega)
    rw [hwin, hwin2]
    have hEnd : t.start_index + e - t.start_index = e := by omega
    rw [hEnd]
  have hfin : inv_state h F t.start_index F.length e depth =
      ⟨[subtree_hash h F depth 0], 0, (t.start_index + e) / 2 ^ depth,
        (List.range depth).map (path_entry h F t.start_index F.length 0),
        (List.range depth).map (path_entry h F t.start_index F.length e)⟩ := by
    unfold inv_state
    have h0 : t.start_index / 2 ^ depth = 0 := Nat.div_eq_of_lt (by omega)
    have h1 : (F.length - 1) / 2 ^ depth = 0 := Nat.div_eq_of_lt (by omega)
    rw [h0, h1]
    simp [List.range'_succ]
  unfold compute_merkle_root_and_path
  simp only [hdepth]
  rw [hinit, List.range_eq_range',
    foldlM_level_step_inv h F t.cache t.start_index F.length e hsN rfl hcache depth 0
      (by omega),
    Nat.zero_add, hfin]
  simp [List.range_eq_range']

/-- `merkle_root` of any tree representing a full leaf list `F` is the
subtree hash of the whole padded tree. -/
theorem merkle_root_eq_subtree {α : Type} [Inhabited α] (h : HasherM α) (F : List α)
    (t : MiniMerkleTree α) (hinv : TreeInvariant t) (hrep : TreeRepr h t F) :
    merkle_root h t =
      some (subtree_hash h F (tree_depth_by_size t.binary_tree_size) 0) := by
  obtain ⟨hpow2, hd32, hbound⟩ := hinv
  obtain ⟨hwin, hlen, hcache, hempty⟩ := hrep
  simp only [merkle_root]
  by_cases hlen0 : t.hashes.length = 0
  · rw [if_pos hlen0]
    by_cases hs0 : t.start_index = 0
    · rw [if_pos hs0]
      have hF0 : F.length = 0 := by omega
      congr 1
      exact (subtree_hash_absent h F (tree_depth_by_size t.binary_tree_size) 0 hd32
        (by omega)).symm
    · rw [if_neg hs0]
      exact hempty (List.length_eq_zero.mp hlen0) (by omega)
  · rw [if_neg hlen0]
    have hne : t.hashes ≠ [] := by
      intro hnil
      rw [hnil] at hlen0
      simp at hlen0
    rw [compute_eq_subtree h F t 0 (tree_depth_by_size t.binary_tree_size) rfl
      (eq_pow_depth_of_is_power_of_two _ hpow2) (by omega) hne hwin hlen
      (by omega) hcache]
    rfl

/-- Frame conditions of `push`: only the hash list (and, when doubling, the
tree size) change. -/
theorem push_fields {α : Type} (h : HasherM α) (t : MiniMerkleTree α) (w : List Nat) :
    (push h t w).hashes = t.hashes ++ [h.hash_bytes w] ∧
    (push h t w).start_index = t.start_index ∧
    (push h t w).cache = t.cache ∧
    ((t.start_index + t.hashes.length + 1 ≤ t.binary_tree_size →
        (push h t w).binary_tree_size = t.binary_tree_size) ∧
      (t.binary_tree_size < t.start_index + t.hashes.length + 1 →
        (push h t w).binary_tree_size = t.binary_tree_size * 2)) := by
  simp only [push]
  split
  next hcond =>
    simp only [List.length_append, List.length_cons, List.length_nil] at hcond
    exact ⟨rfl, rfl, rfl, fun hle => by omega, fun _ => rfl⟩
  next hcond =>
    simp only [List.length_append, List.length_cons, List.length_nil] at hcond
    exact ⟨rfl, rfl, rfl, fun _ => rfl, fun hlt => by omega⟩

/-- `push` preserves representation: the full leaf list gains the new hash. -/
theorem push_repr {α : Type} [Inhabited α] (h : HasherM α) (F : List α)
    (t : MiniMerkleTree α) (w : List Nat) (hrep : TreeRepr h t F) :
    TreeRepr h (push h t w) (F ++ [h.hash_bytes w]) := by
  obtain ⟨hwin, hlen, hcache, hempty⟩ := hrep
  obtain ⟨hh, hs, hcash, hbts⟩ := push_fields h t w
  refine ⟨?_, ?_, ?_, ?_⟩
  · rw [hh, hs, hwin, List.drop_append_of_le_length (by omega)]
  · rw [hh, hs]
    simp only [List.length_append, List.length_cons, List.length_nil]
    omega
  · intro lv hodd
    rw [hs] at hodd
    rw [hcash, hs, hcache lv hodd]
    congr 1
    obtain ⟨a, ha⟩ : ∃ x, t.start_index / 2 ^ lv = x := ⟨_, rfl⟩
    rw [ha] at hodd ⊢
    have he : a - 1 + 1 = a := by omega
    apply (subtree_hash_append h F [h.hash_bytes w] lv _ ?_).symm
    rw [he, ← ha]
    calc t.start_index / 2 ^ lv * 2 ^ lv ≤ t.start_index := Nat.div_mul_le_self _ _
    _ ≤ F.length := by omega
  · intro hnil
    rw [hh] at hnil
    simp at hnil

/-- Structure of a freshly constructed tree. -/
theorem with_hasher_some {α : Type} (h : HasherM α) (leaves : List (List Nat))
    (mts : Option Nat) (t : MiniMerkleTree α)
    (ht : with_hasher h leaves mts = some t) :
    t.hashes = leaves.map h.hash_bytes ∧ t.start_index = 0 ∧ t.cache = [] ∧
    tree_depth_by_size t.binary_tree_size ≤ 32 ∧
    t.binary_tree_size = 2 ^ tree_depth_by_size t.binary_tree_size ∧
    leaves.length ≤ t.binary_tree_size := by
  have hMAX : MAX_TREE_DEPTH = 32 := rfl
  rcases mts with _ | m
  · simp only [with_hasher] at ht
    split at ht
    next hcond =>
      obtain ⟨-, hdep⟩ := hcond
      rw [hMAX] at hdep
      simp only [Option.some.injEq] at ht
      subst ht
      refine ⟨rfl, rfl, rfl, hdep, ?_, ?_⟩
      · show next_power_of_two (leaves.map h.hash_bytes).length = _
        unfold next_power_of_two
        rw [tree_depth_by_size_pow _ (bit_length_aux_le 64 _)]
      · rcases Nat.lt_or_ge ((leaves.map h.hash_bytes).length - 1) (2 ^ 64)
          with hsmall | hbig
        · have h1 := lt_pow_bit_length_aux 64 _ hsmall
          show leaves.length ≤ next_power_of_two (leaves.map h.hash_bytes).length
          unfold next_power_of_two
          simp only [List.length_map] at h1 ⊢
          omega
        · exfalso
          have hsat := bit_length_aux_saturates 64 _ hbig
          revert hdep
          show tree_depth_by_size (next_power_of_two (leaves.map h.hash_bytes).length) ≤ 32 →
            False
          unfold next_power_of_two
          rw [hsat, tree_depth_by_size_pow 64 (by omega)]
          omega
    next hcond => exact absurd ht (by simp)
  · simp only [with_hasher] at ht
    split at ht
    next hcond =>
      obtain ⟨hok, hdep⟩ := hcond
      rw [hMAX] at hdep
      simp only [Option.some.injEq] at ht
      subst ht
      obtain ⟨j, hj64, hjm⟩ := is_power_of_two_spec m hok
      have hmax : max m (next_power_of_two (leaves.map h.hash_bytes).length) =
          2 ^ max j (bit_length_aux 64 ((leaves.map h.hash_bytes).length - 1)) := by
        unfold next_power_of_two
        rcases Nat.le_total j (bit_length_aux 64 ((leaves.map h.hash_bytes).length - 1))
          with hle | hle
        · rw [hjm, max_eq_right (Nat.pow_le_pow_right (by norm_num) hle),
            max_eq_right hle]
        · rw [hjm, max_eq_left (Nat.pow_le_pow_right (by norm_num) hle),
            max_eq_left hle]
      have hk64 : max j (bit_length_aux 64 ((leaves.map h.hash_bytes).length - 1)) ≤ 64 :=
        max_le hj64 (bit_length_aux_le 64 _)
      refine ⟨rfl, rfl, rfl, hdep, ?_, ?_⟩
      · show max m (next_power_of_two (leaves.map h.hash_bytes).length) = _
        rw [hmax, tree_depth_by_size_pow _ hk64]
      · rcases Nat.lt_or_ge ((leaves.map h.hash_bytes).length - 1) (2 ^ 64)
          with hsmall | hbig
        · have h1 := lt_pow_bit_length_aux 64 _ hsmall
          have h2 : leaves.length ≤ next_power_of_two (leaves.map h.hash_bytes).length := by
            unfold next_power_of_two
            simp only [List.length_map] at h1 ⊢
            omega
          exact le_trans h2 (le_max_right _ _)
        · exfalso
          have hsat := bit_length_aux_saturates 64 _ hbig
          revert hdep
          show tree_depth_by_size
              (max m (next_power_of_two (leaves.map h.hash_bytes).length)) ≤ 32 → False
          rw [hmax, tree_depth_by_size_pow _ hk64]
          intro hd
          have h64 : 64 ≤ max j (bit_length_aux 64 ((leaves.map h.hash_bytes).length - 1)) := by
            rw [hsat]
            exact le_max_right _ _
          have := le_trans h64 (le_of_lt (by omega : max j (bit_length_aux 64 ((leaves.map h.hash_bytes).length - 1)) < 33))
          omega
    next hcond => exact absurd ht (by simp)

/-- `trim_start` on a tree with a nonempty window succeeds, keeps the size,
rebuilds a cache of length `depth + 1`, and represents the same full list. -/
theorem trim_start_spec {α : Type} [Inhabited α] (h : HasherM α) (F : List α)
    (t : MiniMerkleTree α) (k : Nat) (hinv : TreeInvariant t) (hrep : TreeRepr h t F)
    (hk : k ≤ t.hashes.length) (hne : t.hashes ≠ []) :
    ∃ t', trim_start h t k = some t' ∧
      t'.binary_tree_size = t.binary_tree_size ∧
      t'.hashes = t.hashes.drop k ∧
      t'.start_index = t.start_index + k ∧
      t'.cache.length = tree_depth_by_size t.binary_tree_size + 1 ∧
      TreeInvariant t' ∧ TreeRepr h t' F := by
  obtain ⟨hpow2, hd32, hbound⟩ := hinv
  obtain ⟨hwin, hlen, hcache, hempty⟩ := hrep
  have hlenpos : 0 < t.hashes.length := List.length_pos.mpr hne
  have hpowd := eq_pow_depth_of_is_power_of_two _ hpow2
  have hcomp := compute_eq_subtree h F t k (tree_depth_by_size t.binary_tree_size) rfl
    hpowd (by omega) hne hwin hlen (by omega) hcache
  have hcget : ∀ lv,
      ((List.range (tree_depth_by_size t.binary_tree_size)).map
          (path_entry h F t.start_index F.length k) ++
        [subtree_hash h F (tree_depth_by_size t.binary_tree_size) 0]).get? lv =
      (if lv < tree_depth_by_size t.binary_tree_size then
        some (path_entry h F t.start_index F.length k lv)
      else if lv = tree_depth_by_size t.binary_tree_size then
        some (subtree_hash h F (tree_depth_by_size t.binary_tree_size) 0)
      else none) := by
    intro lv
    rw [List.get?_eq_getElem?, List.getElem?_append]
    rcases Nat.lt_trichotomy lv (tree_depth_by_size t.binary_tree_size) with hlt | heq | hgt
    · rw [if_pos (by simp only [List.length_map, List.length_range]; omega),
        if_pos hlt, List.getElem?_map, List.getElem?_range hlt]
      rfl
    · rw [if_neg (by simp only [List.length_map, List.length_range]; omega),
        if_neg (by omega), if_pos heq]
      simp [List.length_map, List.length_range, heq]
    · rw [if_neg (by simp only [List.length_map, List.length_range]; omega),
        if_neg (by omega), if_neg (by omega)]
      simp only [List.length_map, List.length_range]
      rw [List.getElem?_eq_none]
      simp only [List.length_cons, List.length_nil]
      omega
  unfold trim_start
  rw [if_pos hk, hcomp]
  simp only [Option.map_some']
  refine ⟨_, rfl, rfl, rfl, rfl, ?_, ?_, ?_⟩
  · -- cache length
    simp [List.length_map, List.length_range]
  · -- invariant
    refine ⟨hpow2, hd32, ?_⟩
    dsimp only
    simp only [List.length_drop]
    omega
  · -- representation w.r.t. the same full list
    refine ⟨?_, ?_, ?_, ?_⟩
    · dsimp only
      rw [hwin, List.drop_drop]
    · dsimp only
      simp only [List.length_drop]
      omega
    · intro lv hodd
      dsimp only at hodd ⊢
      rw [hcget lv]
      rcases Nat.lt_trichotomy lv (tree_depth_by_size t.binary_tree_size) with hlt | heq | hgt
      · rw [if_pos hlt]
        congr 1
        have hpow : 0 < 2 ^ lv := Nat.two_pow_pos lv
        have hple : (t.start_index + k) / 2 ^ lv ≤ (F.length - 1) / 2 ^ lv + 1 := by
          have h1 : t.start_index + k ≤ F.length - 1 + 2 ^ lv := by omega
          have h2 : (t.start_index + k) / 2 ^ lv ≤ (F.length - 1 + 2 ^ lv) / 2 ^ lv :=
            Nat.div_le_div_right h1
          rwa [Nat.add_div_right _ hpow] at h2
        have haB : t.start_index / 2 ^ lv ≤ (F.length - 1) / 2 ^ lv :=
          Nat.div_le_div_right (by omega)
        have hap : t.start_index / 2 ^ lv ≤ (t.start_index + k) / 2 ^ lv :=
          Nat.div_le_div_right (by omega)
        simp only [path_entry]
        obtain ⟨a, ha⟩ : ∃ x, t.start_index / 2 ^ lv = x := ⟨_, rfl⟩
        obtain ⟨B, hB⟩ : ∃ x, (F.length - 1) / 2 ^ lv = x := ⟨_, rfl⟩
        obtain ⟨p, hp⟩ : ∃ x, (t.start_index + k) / 2 ^ lv = x := ⟨_, rfl⟩
        rw [hp] at hodd hple hap
        rw [hB] at hple haB
        rw [ha] at haB hap
        rw [ha, hB, hp]
        rw [xor_one_of_odd p hodd, if_pos (by omega)]
      · rw [if_neg (by omega), if_pos heq]
        obtain ⟨p, hp⟩ : ∃ x, (t.start_index + k) / 2 ^ lv = x := ⟨_, rfl⟩
        rw [hp] at hodd
        have hpow : 0 < 2 ^ lv := Nat.two_pow_pos lv
        have hb2 : t.start_index + k ≤ 2 ^ lv := by rw [heq]; omega
        have hle1 : p ≤ 1 := by
          rw [← hp]
          calc (t.start_index + k) / 2 ^ lv ≤ 2 ^ lv / 2 ^ lv :=
            Nat.div_le_div_right hb2
          _ = 1 := Nat.div_self hpow
        have hp1 : p - 1 = 0 := by omega
        rw [hp, hp1, ← heq]
      · exfalso
        have hp2 : (2 : Nat) ^ tree_depth_by_size t.binary_tree_size < 2 ^ lv :=
          Nat.pow_lt_pow_right (by norm_num) hgt
        have hlt2 : t.start_index + k < 2 ^ lv := by omega
        rw [Nat.div_eq_of_lt hlt2] at hodd
        simp at hodd
    · intro hnil hpos
      dsimp only at hnil hpos ⊢
      rw [hcget]
      rw [if_neg (by omega), if_pos rfl]

/-- Any successful `level_step` appends exactly one entry to the end path. -/
theorem level_step_end_path {α : Type} [Inhabited α] (h : HasherM α)
    (cache : List α) (st st' : PathState α) (lv : Nat)
    (hs : level_step h cache st lv = some st') :
    ∃ x, st'.end_path = st.end_path ++ [x] := by
  simp only [level_step] at hs
  by_cases hpar : st.start_index % 2 = 1
  · rw [if_pos hpar] at hs
    rcases hget : cache.get? lv with _ | c
    · rw [hget] at hs
      simp at hs
    · rw [hget] at hs
      simp only [Option.some_bind, Option.some.injEq] at hs
      subst hs
      exact ⟨_, rfl⟩
  · rw [if_neg hpar] at hs
    simp only [Option.some_bind, Option.some.injEq] at hs
    subst hs
    exact ⟨_, rfl⟩

/-- Folding `level_step` over a level list appends one end-path entry per
level. -/
theorem foldlM_level_step_path_len {α : Type} [Inhabited α] (h : HasherM α)
    (cache : List α) :
    ∀ (ls : List Nat) (st st' : PathState α),
      ls.foldlM (level_step h cache) st = some st' →
      st'.end_path.length = st.end_path.length + ls.length := by
  intro ls
  induction ls with
  | nil =>
    intro st st' hfold
    simp only [List.foldlM_nil] at hfold
    have hst : st = st' := Option.some.inj hfold
    subst hst
    simp
  | cons l ls ih =>
    intro st st' hfold
    rw [List.foldlM_cons] at hfold
    rcases hstep : level_step h cache st l with _ | st1
    · rw [hstep] at hfold
      simp at hfold
    · rw [hstep] at hfold
      have hfold' : ls.foldlM (level_step h cache) st1 = some st' := hfold
      obtain ⟨x, hx⟩ := level_step_end_path h cache st st1 l hstep
      have hrec := ih st1 st' hfold'
      rw [hrec, hx]
      simp only [List.length_append, List.length_cons, List.length_nil]
      omega

/-- Any successful `compute_merkle_root_and_path` returns an end path of
length exactly `depth`. -/
theorem compute_path_length {α : Type} [Inhabited α] (h : HasherM α)
    (t : MiniMerkleTree α) (e : Nat) (r : α × List α × List α)
    (hc : compute_merkle_root_and_path h t e = some r) :
    r.2.2.length = tree_depth_by_size t.binary_tree_size := by
  simp only [compute_merkle_root_and_path] at hc
  rcases hfold : (List.range (tree_depth_by_size t.binary_tree_size)).foldlM
      (level_step h t.cache) ⟨t.hashes, t.start_index, e, [], []⟩ with _ | st
  · rw [hfold] at hc
    simp at hc
  · rw [hfold] at hc
    simp only [Option.some_bind] at hc
    rcases hh : st.hashes with _ | ⟨root, rest⟩
    · rw [hh] at hc
      simp at hc
    · rw [hh] at hc
      simp only [Option.some.injEq] at hc
      subst hc
      have hlen := foldlM_level_step_path_len h t.cache
        (List.range (tree_depth_by_size t.binary_tree_size))
        ⟨t.hashes, t.start_index, e, [], []⟩ st hfold
      simpa using hlen

/-- Structure of any successful `trim_start`: the window drops `count`
leaves, the start index advances, the size is unchanged and the rebuilt
cache has length exactly `depth + 1` — with no validity assumptions, also
when the window was already empty. -/
theorem trim_start_success {α : Type} [Inhabited α] (h : HasherM α)
    (t t' : MiniMerkleTree α) (k : Nat) (ht : trim_start h t k = some t') :
    k ≤ t.hashes.length ∧
    t'.binary_tree_size = t.binary_tree_size ∧
    t'.start_index = t.start_index + k ∧
    t'.hashes = t.hashes.drop k ∧
    t'.cache.length = tree_depth_by_size t.binary_tree_size + 1 := by
  unfold trim_start at ht
  by_cases hk : k ≤ t.hashes.length
  · rw [if_pos hk] at ht
    rcases hcomp : compute_merkle_root_and_path h t k with _ | r
    · rw [hcomp] at ht
      simp at ht
    · rw [hcomp] at ht
      simp only [Option.map_some', Option.some.injEq] at ht
      subst ht
      refine ⟨hk, rfl, rfl, rfl, ?_⟩
      have hplen := compute_path_length h t k r hcomp
      simp only [List.length_append, List.length_cons, List.length_nil]
      omega
  · rw [if_neg hk] at ht
    simp at ht

/-- A freshly constructed tree satisfies the invariant and represents its
own hash list. -/
theorem with_hasher_valid {α : Type} [Inhabited α] (h : HasherM α)
    (leaves : List (List Nat)) (mts : Option Nat) (t : MiniMerkleTree α)
    (ht : with_hasher h leaves mts = some t) :
    TreeInvariant t ∧ TreeRepr h t (leaves.map h.hash_bytes) := by
  obtain ⟨hh, hs, hc, hd, hpow, hlen⟩ := with_hasher_some h leaves mts t ht
  refine ⟨⟨?_, hd, ?_⟩, ?_, ?_, ?_, ?_⟩
  · simp only [is_power_of_two, beq_iff_eq]
    exact hpow
  · rw [hs, hh]
    simp only [List.length_map, Nat.zero_add]
    exact hlen
  · rw [hh, hs, List.drop_zero]
  · rw [hh, hs]
    simp
  · intro lv hodd
    rw [hs] at hodd
    simp [Nat.zero_div] at hodd
  · intro _ hpos
    rw [hs] at hpos
    omega

/-- The naive pairwise-compression rounds over a full slice of subtree
hashes collapse to the single top hash. -/
theorem naive_levels_subtree {α : Type} [Inhabited α] (h : HasherM α) (F : List α) :
    ∀ d lv, naive_levels h d ((List.range' 0 (2 ^ d)).map (subtree_hash h F lv)) =
      [subtree_hash h F (d + lv) 0] := by
  intro d
  induction d with
  | zero =>
    intro lv
    simp [naive_levels, List.range'_succ]
  | succ d ih =>
    intro lv
    have hpair := pair_compress_map_range' h (subtree_hash h F lv) (2 ^ d) 0
    simp only [Nat.mul_zero] at hpair
    have hcol : (List.range' 0 (2 ^ d)).map
        (fun j => h.compress (subtree_hash h F lv (2 * j)) (subtree_hash h F lv (2 * j + 1))) =
        (List.range' 0 (2 ^ d)).map (subtree_hash h F (lv + 1)) :=
      List.map_congr_left fun j _ => rfl
    simp only [naive_levels]
    rw [show (2 : Nat) ^ (d + 1) = 2 * 2 ^ d from by ring, hpair, hcol, ih (lv + 1),
      show d + (lv + 1) = d + 1 + lv from by omega]

/-- Padding the leaf hashes to the full size with the empty leaf hash gives
exactly the level-0 slice of the padded tree. -/
theorem padded_eq_map_range' {α : Type} [Inhabited α] (h : HasherM α) (L : List α)
    (size : Nat) (hle : L.length ≤ size) :
    L ++ List.replicate (size - L.length) (empty_subtree_hash h 0) =
      (List.range' 0 size).map (subtree_hash h L 0) := by
  apply List.ext_getElem?
  intro i
  rw [List.getElem?_append]
  rcases Nat.lt_or_ge i L.length with hi | hi
  · rw [if_pos hi, List.getElem?_map, List.getElem?_range' 0 1 (by omega)]
    simp only [Nat.one_mul, Nat.zero_add, Option.map_some']
    rw [List.getElem?_eq_getElem hi]
    congr 1
    simp only [subtree_hash]
    rw [List.getD_eq_getElem?_getD, List.getElem?_eq_getElem hi]
    rfl
  · rw [if_neg (by omega)]
    rcases Nat.lt_or_ge i size with hsz | hsz
    · rw [List.getElem?_map, List.getElem?_range' 0 1 hsz]
      simp only [Nat.one_mul, Nat.zero_add, Option.map_some']
      rw [List.getElem?_replicate]
      rw [if_pos (by omega)]
      congr 1
      simp only [subtree_hash]
      exact (List.getD_eq_default _ _ (by omega)).symm
    · rw [List.getElem?_eq_none (by simp only [List.length_replicate]; omega),
        List.getElem?_eq_none (by simp only [List.length_map, List.length_range']; omega)]

/-- The root of a freshly constructed tree is the naive full-tree root. -/
theorem merkle_root_eq_naive {α : Type} [Inhabited α] (h : HasherM α)
    (leaves : List (List Nat)) (mts : Option Nat) (t : MiniMerkleTree α)
    (ht : with_hasher h leaves mts = some t) :
    merkle_root h t =
      some (naive_merkle_root h (leaves.map h.hash_bytes) t.binary_tree_size) := by
  obtain ⟨hinv, hrep⟩ := with_hasher_valid h leaves mts t ht
  obtain ⟨hh, hs, hc, hd, hpow, hlen⟩ := with_hasher_some h leaves mts t ht
  rw [merkle_root_eq_subtree h _ t hinv hrep]
  congr 1
  unfold naive_merkle_root
  rw [padded_eq_map_range' h (leaves.map h.hash_bytes) t.binary_tree_size
    (by simp only [List.length_map]; exact hlen)]
  obtain ⟨d, hd32, hsz⟩ : ∃ d, d ≤ 32 ∧ t.binary_tree_size = 2 ^ d := ⟨_, hd, hpow⟩
  rw [hsz, tree_depth_by_size_pow d (by omega), naive_levels_subtree h _ d 0,
    Nat.add_zero]
  rfl

/-- Two trees representing the same full list and of equal size keep equal
sizes after a push. -/
theorem push_size_eq {α : Type} [Inhabited α] (h : HasherM α) (F : List α)
    (t1 t2 : MiniMerkleTree α) (w : List Nat)
    (hr1 : TreeRepr h t1 F) (hr2 : TreeRepr h t2 F)
    (hbts : t1.binary_tree_size = t2.binary_tree_size) :
    (push h t1 w).binary_tree_size = (push h t2 w).binary_tree_size := by
  obtain ⟨-, hlen1, -, -⟩ := hr1
  obtain ⟨-, hlen2, -, -⟩ := hr2
  obtain ⟨-, -, -, hno1, hyes1⟩ := push_fields h t1 w
  obtain ⟨-, -, -, hno2, hyes2⟩ := push_fields h t2 w
  rcases Nat.lt_or_ge t1.binary_tree_size (t1.start_index + t1.hashes.length + 1)
    with hlt | hle
  · rw [hyes1 hlt, hyes2 (by omega), hbts]
  · rw [hno1 hle, hno2 (by omega), hbts]

/-- `push` preserves the invariant as long as the new leaf count stays within
the maximum supported depth. -/
theorem push_invariant {α : Type} (h : HasherM α) (t : MiniMerkleTree α) (w : List Nat)
    (hinv : TreeInvariant t)
    (hsmall : t.start_index + t.hashes.length + 1 ≤ 2 ^ 32) :
    TreeInvariant (push h t w) := by
  obtain ⟨hpow2, hd32, hbound⟩ := hinv
  obtain ⟨hh, hs, hc, hno, hyes⟩ := push_fields h t w
  have hpe := eq_pow_depth_of_is_power_of_two _ hpow2
  obtain ⟨d, hd32x, hsz⟩ : ∃ d, d ≤ 32 ∧ t.binary_tree_size = 2 ^ d := ⟨_, hd32, hpe⟩
  have hbpos : 0 < t.binary_tree_size := by
    rw [hsz]
    exact Nat.two_pow_pos d
  rcases Nat.lt_or_ge t.binary_tree_size (t.start_index + t.hashes.length + 1)
    with hlt | hle
  · have hdlt : d < 32 := by
      by_contra hge
      have h32 : (2 : Nat) ^ 32 ≤ 2 ^ d := Nat.pow_le_pow_right (by norm_num) (by omega)
      omega
    refine ⟨?_, ?_, ?_⟩
    · rw [hyes hlt, hsz, show (2 : Nat) ^ d * 2 = 2 ^ (d + 1) from by ring]
      exact is_power_of_two_pow _ (by omega)
    · rw [hyes hlt, hsz, show (2 : Nat) ^ d * 2 = 2 ^ (d + 1) from by ring,
        tree_depth_by_size_pow _ (by omega)]
      omega
    · rw [hyes hlt, hh, hs]
      simp only [List.length_append, List.length_cons, List.length_nil]
      omega
  · refine ⟨?_, ?_, ?_⟩
    · rw [hno hle]
      exact hpow2
    · rw [hno hle]
      exact hd32
    · rw [hno hle, hh, hs]
      simp only [List.length_append, List.length_cons, List.length_nil]
      omega

/-- `push` keeps the size a power of two whose depth stays at most 33 as
long as the new leaf count is at most `2^33`, and keeps the window within
the size. (Depth 33 is reachable by doubling past `2^32`; the level loop of
a depth-33 tree still only consults the empty-subtree table at levels
`0..32`.) -/
theorem push_pow33 {α : Type} (h : HasherM α) (t : MiniMerkleTree α) (w : List Nat)
    (hpow : t.binary_tree_size = 2 ^ tree_depth_by_size t.binary_tree_size)
    (hd : tree_depth_by_size t.binary_tree_size ≤ 33)
    (hbound : t.start_index + t.hashes.length ≤ t.binary_tree_size)
    (hsmall : t.start_index + t.hashes.length + 1 ≤ 2 ^ 33) :
    (push h t w).binary_tree_size =
      2 ^ tree_depth_by_size (push h t w).binary_tree_size ∧
    tree_depth_by_size (push h t w).binary_tree_size ≤ 33 ∧
    (push h t w).start_index + (push h t w).hashes.length ≤
      (push h t w).binary_tree_size := by
  obtain ⟨hh, hs, hc, hno, hyes⟩ := push_fields h t w
  obtain ⟨d, hdeq⟩ : ∃ x, tree_depth_by_size t.binary_tree_size = x := ⟨_, rfl⟩
  rw [hdeq] at hpow hd
  have hbpos : 0 < t.binary_tree_size := by
    rw [hpow]
    exact Nat.two_pow_pos d
  rcases Nat.lt_or_ge t.binary_tree_size (t.start_index + t.hashes.length + 1)
    with hlt | hle
  · have hdlt : d < 33 := by
      by_contra hge
      have h33 : (2 : Nat) ^ 33 ≤ 2 ^ d := Nat.pow_le_pow_right (by norm_num) (by omega)
      omega
    refine ⟨?_, ?_, ?_⟩
    · rw [hyes hlt, hpow, show (2 : Nat) ^ d * 2 = 2 ^ (d + 1) from by ring,
        tree_depth_by_size_pow _ (by omega)]
    · rw [hyes hlt, hpow, show (2 : Nat) ^ d * 2 = 2 ^ (d + 1) from by ring,
        tree_depth_by_size_pow _ (by omega)]
      omega
    · rw [hyes hlt, hh, hs]
      simp only [List.length_append, List.length_cons, List.length_nil]
      omega
  · refine ⟨?_, ?_, ?_⟩
    · rw [hno hle, hdeq]
      exact hpow
    · rw [hno hle, hdeq]
      exact hd
    · rw [hno hle, hh, hs]
      simp only [List.length_append, List.length_cons, List.length_nil]
      omega

/-- `merkle_root` of a nonempty window is the subtree hash of the whole
padded tree; valid up to depth 33 since the level loop of such a tree only
reads the memoized empty-subtree table at levels `0..32`. -/
theorem merkle_root_eq_subtree_ne {α : Type} [Inhabited α] (h : HasherM α)
    (F : List α) (t : MiniMerkleTree α)
    (hpow : t.binary_tree_size = 2 ^ tree_depth_by_size t.binary_tree_size)
    (hd : tree_depth_by_size t.binary_tree_size ≤ 33)
    (hne : t.hashes ≠ [])
    (hwin : t.hashes = F.drop t.start_index)
    (hlen : F.length = t.start_index + t.hashes.length)
    (hbound : F.length ≤ t.binary_tree_size)
    (hcache : ∀ lv, (t.start_index / 2 ^ lv) % 2 = 1 →
      t.cache.get? lv = some (subtree_hash h F lv (t.start_index / 2 ^ lv - 1))) :
    merkle_root h t =
      some (subtree_hash h F (tree_depth_by_size t.binary_tree_size) 0) := by
  simp only [merkle_root]
  rw [if_neg (fun h0 => hne (List.length_eq_zero.mp h0)),
    compute_eq_subtree h F t 0 (tree_depth_by_size t.binary_tree_size) rfl hpow hd
      hne hwin hlen hbound hcache]
  rfl

/-- Two trees with nonempty windows representing the same full list and of
equal (possibly depth-33) size have the same root. -/
theorem merkle_root_congr_ne {α : Type} [Inhabited α] (h : HasherM α) (F : List α)
    (t1 t2 : MiniMerkleTree α)
    (hpow1 : t1.binary_tree_size = 2 ^ tree_depth_by_size t1.binary_tree_size)
    (hd1 : tree_depth_by_size t1.binary_tree_size ≤ 33)
    (hne1 : t1.hashes ≠ []) (hne2 : t2.hashes ≠ [])
    (hr1 : TreeRepr h t1 F) (hr2 : TreeRepr h t2 F)
    (hFb : F.length ≤ t1.binary_tree_size)
    (hbts : t1.binary_tree_size = t2.binary_tree_size) :
    merkle_root h t1 = merkle_root h t2 := by
  obtain ⟨hwin1, hlen1, hcache1, -⟩ := hr1
  obtain ⟨hwin2, hlen2, hcache2, -⟩ := hr2
  rw [merkle_root_eq_subtree_ne h F t1 hpow1 hd1 hne1 hwin1 hlen1 hFb hcache1,
    merkle_root_eq_subtree_ne h F t2 (by rw [← hbts]; exact hpow1)
      (by rw [← hbts]; exact hd1) hne2 hwin2 hlen2 (by omega) hcache2, hbts]

/-- Valid trees representing the same full list with the same size have the
same root. -/
theorem merkle_root_congr {α : Type} [Inhabited α] (h : HasherM α) (F : List α)
    (t1 t2 : MiniMerkleTree α)
    (hi1 : TreeInvariant t1) (hr1 : TreeRepr h t1 F)
    (hi2 : TreeInvariant t2) (hr2 : TreeRepr h t2 F)
    (hbts : t1.binary_tree_size = t2.binary_tree_size) :
    merkle_root h t1 = merkle_root h t2 := by
  rw [merkle_root_eq_subtree h F t1 hi1 hr1, merkle_root_eq_subtree h F t2 hi2 hr2, hbts]

/-- Pushing the same leaves onto two trees that represent the same full list
yields the same root after every push, for total leaf counts up to `2^33`
(the deepest trees whose level loop stays within the empty-subtree table). -/
theorem roots_seq_congr {α : Type} [Inhabited α] (h : HasherM α) :
    ∀ (ws : List (List Nat)) (t1 t2 : MiniMerkleTree α) (F : List α),
      t1.binary_tree_size = 2 ^ tree_depth_by_size t1.binary_tree_size →
      tree_depth_by_size t1.binary_tree_size ≤ 33 →
      t1.start_index + t1.hashes.length ≤ t1.binary_tree_size →
      TreeRepr h t1 F → TreeRepr h t2 F →
      t1.binary_tree_size = t2.binary_tree_size →
      t2.start_index + t2.hashes.length ≤ t2.binary_tree_size →
      F.length + ws.length ≤ 2 ^ 33 →
      roots_seq h t1 ws = roots_seq h t2 ws := by
  intro ws
  induction ws with
  | nil => intros; rfl
  | cons w ws ih =>
    intro t1 t2 F hpow1 hd1 hb1 hr1 hr2 hbts hb2 hbound
    simp only [roots_seq, List.length_cons] at hbound ⊢
    have hlen1 := hr1.2.1
    have hlen2 := hr2.2.1
    have hsz := push_size_eq h F t1 t2 w hr1 hr2 hbts
    have hr1' := push_repr h F t1 w hr1
    have hr2' := push_repr h F t2 w hr2
    obtain ⟨hpow1', hd1', hb1'⟩ := push_pow33 h t1 w hpow1 hd1 hb1 (by omega)
    obtain ⟨-, -, hb2'⟩ := push_pow33 h t2 w (by rw [← hbts]; exact hpow1)
      (by rw [← hbts]; exact hd1) hb2 (by omega)
    have hne1' : (push h t1 w).hashes ≠ [] := by
      intro hnil
      rw [(push_fields h t1 w).1] at hnil
      simp at hnil
    have hne2' : (push h t2 w).hashes ≠ [] := by
      intro hnil
      rw [(push_fields h t2 w).1] at hnil
      simp at hnil
    rw [merkle_root_congr_ne h (F ++ [h.hash_bytes w]) _ _ hpow1' hd1' hne1' hne2'
        hr1' hr2' (by rw [hr1'.2.1]; exact hb1') hsz,
      ih (push h t1 w) (push h t2 w) (F ++ [h.hash_bytes w]) hpow1' hd1' hb1'
        hr1' hr2' hsz hb2'
        (by simp only [List.length_append, List.length_cons, List.length_nil]; omega)]

/-- Trimming a nonempty window preserves the root, and any subsequent pushes
keeping the total within `2^33` leaves produce the same root sequence as on
the untrimmed tree. -/
theorem trim_preserves_roots {α : Type} [Inhabited α] (h : HasherM α)
    (t : MiniMerkleTree α) (F : List α) (k : Nat)
    (hinv : TreeInvariant t) (hrep : TreeRepr h t F)
    (hk : k ≤ t.hashes.length) (hne : t.hashes ≠ []) :
    ∃ t', trim_start h t k = some t' ∧
      merkle_root h t' = merkle_root h t ∧
      ∀ ws, F.length + ws.length ≤ 2 ^ 33 → roots_seq h t' ws = roots_seq h t ws := by
  obtain ⟨t', htrim, hbts, hhs, hsi, hclen, hinv', hrep'⟩ :=
    trim_start_spec h F t k hinv hrep hk hne
  obtain ⟨hpow2', hd32', hbound'⟩ := hinv'
  obtain ⟨hpow2, hd32, hbound⟩ := hinv
  refine ⟨t', htrim,
    merkle_root_congr h F t' t ⟨hpow2', hd32', hbound'⟩ hrep' ⟨hpow2, hd32, hbound⟩
      hrep hbts,
    fun ws hb => ?_⟩
  exact roots_seq_congr h ws t' t F (eq_pow_depth_of_is_power_of_two _ hpow2')
    (by omega) hbound' hrep' hrep hbts hbound hb

/-! ### Claim theorems for the MiniMerkleTree -/

/-- C1: for every `MiniMerkleTree` built from a list of leaves (optionally
padded with a power-of-two `min_tree_size`), `merkle_root` equals the Merkle
root computed by the naive full binary tree construction of size
`binary_tree_size` that fills absent leaves with `empty_subtree_hash 0` and
combines nodes pairwise with `compress`. -/
theorem c1_merkle_root_refines_naive {α : Type} [Inhabited α] (h : HasherM α)
    (leaves : List (List Nat)) (min_tree_size : Option Nat) (t : MiniMerkleTree α)
    (ht : with_hasher h leaves min_tree_size = some t) :
    merkle_root h t =
      some (naive_merkle_root h (leaves.map h.hash_bytes) t.binary_tree_size) :=
  merkle_root_eq_naive h leaves min_tree_size t ht

theorem c1_witness :
    with_hasher natHasher [[1, 2], [3, 4], [5, 6]] (some 4) =
      some ⟨[[1, 2], [3, 4], [5, 6]].map natHasher.hash_bytes, 4, 0, []⟩ ∧
    merkle_root natHasher ⟨[[1, 2], [3, 4], [5, 6]].map natHasher.hash_bytes, 4, 0, []⟩ =
      some (naive_merkle_root natHasher ([[1, 2], [3, 4], [5, 6]].map natHasher.hash_bytes)
        (⟨[[1, 2], [3, 4], [5, 6]].map natHasher.hash_bytes, 4, 0,
          []⟩ : MiniMerkleTree Nat).binary_tree_size) :=
  ⟨by decide, c1_merkle_root_refines_naive natHasher [[1, 2], [3, 4], [5, 6]] (some 4) _
    (by decide)⟩

/-- C2 counterexample: the claim quantifies over every tree and every
`k ≤ |hashes|`, but trimming `k = 0` leaves of an empty, untrimmed tree
panics (`hashes[0]` on an empty deque), so the root is not preserved there. -/
theorem c2_counterexample :
    with_hasher natHasher [] (some 4) = some ⟨[], 4, 0, []⟩ ∧
    0 ≤ (⟨[], 4, 0, []⟩ : MiniMerkleTree Nat).hashes.length ∧
    trim_start natHasher (⟨[], 4, 0, []⟩ : MiniMerkleTree Nat) 0 = none :=
  ⟨by decide, by decide, by decide⟩

/-- C2 (amended): on a valid tree with at least one uncached leaf,
`trim_start k` (for `k ≤ |hashes|`) succeeds and leaves `merkle_root`
unchanged, and any subsequent sequence of pushes that keeps the total leaf
count within `2^33` (the deepest tree whose level loop still only reads the
33-entry empty-subtree table) produces the same sequence of roots as the
same pushes on the untrimmed tree. -/
theorem c2_trim_preserves_root_and_pushes {α : Type} [Inhabited α] (h : HasherM α)
    (t : MiniMerkleTree α) (F : List α) (k : Nat)
    (hinv : TreeInvariant t) (hrep : TreeRepr h t F)
    (hk : k ≤ t.hashes.length) (hne : t.hashes ≠ []) :
    ∃ t', trim_start h t k = some t' ∧
      merkle_root h t' = merkle_root h t ∧
      ∀ ws, F.length + ws.length ≤ 2 ^ 33 →
        roots_seq h t' ws = roots_seq h t ws :=
  trim_preserves_roots h t F k hinv hrep hk hne

theorem c2_witness :
    t4.hashes ≠ [] ∧ 2 ≤ t4.hashes.length ∧
    ∃ t', trim_start natHasher t4 2 = some t' ∧
      merkle_root natHasher t' = merkle_root natHasher t4 ∧
      ∀ ws, (leaves4.map natHasher.hash_bytes).length + ws.length ≤ 2 ^ 33 →
        roots_seq natHasher t' ws = roots_seq natHasher t4 ws :=
  ⟨by decide, by decide,
    c2_trim_preserves_root_and_pushes natHasher t4 (leaves4.map natHasher.hash_bytes) 2
      ⟨by decide, by decide, by decide⟩
      ⟨rfl, by decide, fun lv hodd => by simp [t4] at hodd,
        fun hnil => absurd hnil (by decide)⟩
      (by decide) (by decide)⟩

/-- C5 counterexample: the claim says `merkle_root_and_path` panics for every
index `≥ |hashes|`, but on a 2-leaf tree the call with index 5 returns
normally (the out-of-bounds sibling lookup falls back to the default hash). -/
theorem c5_counterexample :
    t2.hashes.length ≤ 5 ∧ merkle_root_and_path natHasher t2 5 ≠ none :=
  ⟨by decide, by decide⟩

/-- C5 (amended): on a valid tree with at least one uncached leaf,
`merkle_root_and_path` returns without panicking for EVERY index — also the
out-of-range ones, whose missing siblings are replaced by the default (zero)
hash — in particular for every index `< |hashes|`. -/
theorem c5_merkle_root_and_path_no_panic {α : Type} [Inhabited α] (h : HasherM α)
    (t : MiniMerkleTree α) (F : List α) (index : Nat)
    (hinv : TreeInvariant t) (hrep : TreeRepr h t F) (hne : t.hashes ≠ []) :
    (merkle_root_and_path h t index).isSome = true := by
  obtain ⟨hpow2, hd32, hbound⟩ := hinv
  obtain ⟨hwin, hlen, hcache, hempty⟩ := hrep
  unfold merkle_root_and_path
  rw [compute_eq_subtree h F t index (tree_depth_by_size t.binary_tree_size) rfl
    (eq_pow_depth_of_is_power_of_two _ hpow2) (by omega) hne hwin hlen (by omega) hcache]
  rfl

theorem c5_witness :
    t2.hashes ≠ [] ∧ 1 < t2.hashes.length ∧
    (merkle_root_and_path natHasher t2 1).isSome = true :=
  ⟨by decide, by decide,
    c5_merkle_root_and_path_no_panic natHasher t2 (leaves2.map natHasher.hash_bytes) 1
      ⟨by decide, by decide, by decide⟩
      ⟨rfl, by decide, fun lv hodd => by simp [t2] at hodd,
        fun hnil => absurd hnil (by decide)⟩
      (by decide)⟩

/-- C7 counterexample: `push` on a full tree of size `2^32` (here fully
trimmed) doubles the size to `2^33`, whose depth 33 violates the claimed
`depth ≤ 32` part of the invariant. -/
theorem c7_counterexample :
    TreeInvariant t_full ∧ ¬ TreeInvariant (push natHasher t_full [1, 2]) :=
  ⟨⟨by decide, by decide, by decide⟩,
    fun hbad => absurd hbad.2.1 (by decide)⟩

/-- C7 (amended): construction establishes the invariant (power-of-two size,
depth ≤ 32, window bound) with an empty cache; `push` always preserves the
power-of-two size and the window bound, and preserves the full invariant
(including the depth cap) whenever the grown window still fits within `2^32`
leaves; every successful `trim_start` on a valid tree — for any count, also
on an already-empty window — preserves the invariant and leaves a cache of
length exactly `depth + 1`. -/
theorem c7_operations_preserve_invariant {α : Type} [Inhabited α] (h : HasherM α) :
    (∀ leaves mts (t : MiniMerkleTree α), with_hasher h leaves mts = some t →
      TreeInvariant t ∧ t.cache = []) ∧
    (∀ (t : MiniMerkleTree α) w, TreeInvariant t →
      is_power_of_two (push h t w).binary_tree_size = true ∧
      (push h t w).start_index + (push h t w).hashes.length ≤
        (push h t w).binary_tree_size) ∧
    (∀ (t : MiniMerkleTree α) w, TreeInvariant t →
      t.start_index + t.hashes.length + 1 ≤ 2 ^ 32 → TreeInvariant (push h t w)) ∧
    (∀ (t : MiniMerkleTree α) k t', TreeInvariant t →
      trim_start h t k = some t' →
      TreeInvariant t' ∧ t'.cache.length = tree_depth_by_size t'.binary_tree_size + 1) := by
  refine ⟨?_, ?_, ?_, ?_⟩
  · intro leaves mts t ht
    obtain ⟨hinv, -⟩ := with_hasher_valid h leaves mts t ht
    obtain ⟨-, -, hc, -, -, -⟩ := with_hasher_some h leaves mts t ht
    exact ⟨hinv, hc⟩
  · intro t w hinv
    obtain ⟨hpow2, hd32, hbound⟩ := hinv
    obtain ⟨hh, hs, hc, hno, hyes⟩ := push_fields h t w
    have hpe := eq_pow_depth_of_is_power_of_two _ hpow2
    obtain ⟨d, hd32x, hsz⟩ : ∃ d, d ≤ 32 ∧ t.binary_tree_size = 2 ^ d := ⟨_, hd32, hpe⟩
    have hbpos : 0 < t.binary_tree_size := by
      rw [hsz]
      exact Nat.two_pow_pos d
    rcases Nat.lt_or_ge t.binary_tree_size (t.start_index + t.hashes.length + 1)
      with hlt | hle
    · constructor
      · rw [hyes hlt, hsz, show (2 : Nat) ^ d * 2 = 2 ^ (d + 1) from by ring]
        exact is_power_of_two_pow _ (by omega)
      · rw [hyes hlt, hh, hs]
        simp only [List.length_append, List.length_cons, List.length_nil]
        omega
    · constructor
      · rw [hno hle]
        exact hpow2
      · rw [hno hle, hh, hs]
        simp only [List.length_append, List.length_cons, List.length_nil]
        omega
  · intro t w hinv hsmall
    exact push_invariant h t w hinv hsmall
  · intro t k t' hinv htrim
    obtain ⟨hpow2, hd32, hbound⟩ := hinv
    obtain ⟨hk, hbts, hsi, hhs, hclen⟩ := trim_start_success h t t' k htrim
    refine ⟨⟨?_, ?_, ?_⟩, ?_⟩
    · rw [hbts]
      exact hpow2
    · rw [hbts]
      exact hd32
    · rw [hbts, hsi, hhs, List.length_drop]
      omega
    · rw [hbts]
      exact hclen

theorem c7_witness :
    (with_hasher natHasher leaves4 none = some t4 ∧
      (TreeInvariant t4 ∧ t4.cache = [])) ∧
    (trim_start natHasher (⟨[], 4, 3, [5, 6, 9]⟩ : MiniMerkleTree Nat) 0 =
        some ⟨[], 4, 3, [5, 6, 486]⟩ ∧
      (TreeInvariant (⟨[], 4, 3, [5, 6, 486]⟩ : MiniMerkleTree Nat) ∧
        (⟨[], 4, 3, [5, 6, 486]⟩ : MiniMerkleTree Nat).cache.length =
          tree_depth_by_size
            (⟨[], 4, 3, [5, 6, 486]⟩ : MiniMerkleTree Nat).binary_tree_size + 1)) :=
  ⟨⟨by decide, (c7_operations_preserve_invariant natHasher).1 leaves4 none t4 (by decide)⟩,
   ⟨by decide,
    (c7_operations_preserve_invariant natHasher).2.2.2 ⟨[], 4, 3, [5, 6, 9]⟩ 0
      ⟨[], 4, 3, [5, 6, 486]⟩ ⟨by decide, by decide, by decide⟩ (by decide)⟩⟩

/-- C10: `push` changes no field except appending one leaf hash; when no
doubling is needed (`start_index + |hashes| + 1 ≤ binary_tree_size`) the size
is unchanged, and when doubling is needed only `binary_tree_size` additionally
changes, being multiplied by 2. -/
theorem c10_push_frame {α : Type} (h : HasherM α) (t : MiniMerkleTree α)
    (w : List Nat) :
    (push h t w).hashes = t.hashes ++ [h.hash_bytes w] ∧
    (push h t w).start_index = t.start_index ∧
    (push h t w).cache = t.cache ∧
    (t.start_index + t.hashes.length + 1 ≤ t.binary_tree_size →
      (push h t w).binary_tree_size = t.binary_tree_size) ∧
    (t.binary_tree_size < t.start_index + t.hashes.length + 1 →
      (push h t w).binary_tree_size = t.binary_tree_size * 2) :=
  push_fields h t w

theorem c10_witness :
    ((push natHasher t4 [9, 10]).hashes =
      t4.hashes ++ [natHasher.hash_bytes [9, 10]] ∧
    (push natHasher t4 [9, 10]).cache = t4.cache) ∧
    t4.binary_tree_size < t4.start_index + t4.hashes.length + 1 ∧
    (push natHasher t4 [9, 10]).binary_tree_size = t4.binary_tree_size * 2 :=
  ⟨⟨(c10_push_frame natHasher t4 [9, 10]).1, (c10_push_frame natHasher t4 [9, 10]).2.2.1⟩,
    by decide, (c10_push_frame natHasher t4 [9, 10]).2.2.2.2 (by decide)⟩

/-- C8: for the hash capability, `empty_subtree_hash 0` is the leaf hash of
the all-zero leaf of the configured leaf size, and for every depth `d` with
`1 ≤ d ≤ 32`, `empty_subtree_hash d` is the compression of two copies of
`empty_subtree_hash (d-1)`. -/
theorem c8_empty_subtree_recurrence {α : Type} [Inhabited α] (h : HasherM α)
    (d : Nat) (h1 : 1 ≤ d) (h32 : d ≤ 32) :
    empty_subtree_hash h 0 = h.hash_bytes (List.replicate h.leaf_size 0) ∧
    empty_subtree_hash h d =
      h.compress (empty_subtree_hash h (d - 1)) (empty_subtree_hash h (d - 1)) := by
  constructor
  · rw [empty_subtree_hash_iter h 0 (by omega)]
    rfl
  · obtain ⟨d', rfl⟩ : ∃ d', d = d' + 1 := ⟨d - 1, by omega⟩
    simpa using empty_subtree_hash_succ h d' (by omega)

theorem c8_witness :
    (1 ≤ 5 ∧ 5 ≤ 32) ∧
    (empty_subtree_hash natHasher 0 =
      natHasher.hash_bytes (List.replicate natHasher.leaf_size 0) ∧
    empty_subtree_hash natHasher 5 =
      natHasher.compress (empty_subtree_hash natHasher (5 - 1))
        (empty_subtree_hash natHasher (5 - 1))) :=
  ⟨⟨by decide, by decide⟩, c8_empty_subtree_recurrence natHasher 5 (by decide) (by decide)⟩

/-! ### Claim theorems for the parallel database -/

/-- Scanning a queue newest-to-oldest for the first hit is the same as taking
the last of the commands that contain a hit. -/
theorem findSome?_reverse_eq_getLast? {β γ : Type} (g : β → Option γ) (l : List β) :
    l.reverse.findSome? g = ((l.filter (fun c => (g c).isSome)).getLast?).bind g := by
  induction l using List.reverseRecOn with
  | nil => rfl
  | append_singleton l a ih =>
    rw [List.reverse_append, List.filter_append]
    rcases hga : g a with _ | b
    · simp only [List.reverse_cons, List.reverse_nil, List.nil_append,
        List.singleton_append, List.findSome?_cons, hga, List.filter_cons, hga,
        Option.isSome_none, Bool.false_eq_true, if_false, List.filter_nil,
        List.append_nil]
      exact ih
    · simp only [List.reverse_cons, List.reverse_nil, List.nil_append,
        List.singleton_append, List.findSome?_cons, hga, List.filter_cons, hga,
        Option.isSome_some, if_true, List.filter_nil]
      rw [List.getLast?_concat]
      simp [hga]

/-- The newest command containing a key does contain it. -/
theorem newest_command_lookup_isSome (commands : List PersistenceCommand)
    (key : NodeKey) (c : PersistenceCommand)
    (hc : newest_command_with_key commands key = some c) :
    (c.patch.nodes.lookup key).isSome = true := by
  unfold newest_command_with_key at hc
  have hmem : c ∈ commands.filter (fun c => (c.patch.nodes.lookup key).isSome) := by
    have hmem0 : c ∈ (commands.filter (fun c => (c.patch.nodes.lookup key).isSome)).getLast? :=
      Option.mem_def.mpr hc
    obtain ⟨hne, hceq⟩ := List.mem_getLast?_eq_getLast hmem0
    rw [hceq]
    exact List.getLast_mem hne
  simpa using (List.mem_filter.mp hmem).2

/-- C3: `try_tree_node` on a key of the tracked version returns the node in
the newest enqueued command containing the key, and delegates to the inner
store otherwise (and always delegates for other versions). -/
theorem c3_try_tree_node_spec (inner : NodeKey → Bool → Except DeserializeError (Option Node))
    (db : ParallelDatabase) (key : NodeKey) (is_leaf : Bool) :
    (key.version ≠ db.updated_version →
      try_tree_node inner db key is_leaf = inner key is_leaf) ∧
    (key.version = db.updated_version →
      (∀ c, newest_command_with_key db.commands key = some c →
        try_tree_node inner db key is_leaf = Except.ok (c.patch.nodes.lookup key)) ∧
      (newest_command_with_key db.commands key = none →
        try_tree_node inner db key is_leaf = inner key is_leaf)) := by
  constructor
  · intro hne
    unfold try_tree_node
    rw [if_pos hne]
  · intro heq
    have hbridge := findSome?_reverse_eq_getLast?
      (fun c : PersistenceCommand => c.patch.nodes.lookup key) db.commands
    constructor
    · intro c hc
      have hsome := newest_command_lookup_isSome db.commands key c hc
      unfold newest_command_with_key at hc
      unfold try_tree_node
      rw [if_neg (by omega), hbridge, hc]
      obtain ⟨n, hn⟩ := Option.isSome_iff_exists.mp hsome
      simp [Option.bind, hn]
    · intro hc
      unfold newest_command_with_key at hc
      unfold try_tree_node
      rw [if_neg (by omega), hbridge, hc]
      rfl

theorem c3_witness :
    (k7.version = db7.updated_version ∧
      newest_command_with_key db7.commands k7 = some ⟨⟨7⟩, ⟨some ⟨5⟩, [(k7, Node.leaf 3)]⟩, []⟩) ∧
    try_tree_node (fun _ _ => Except.ok none) db7 k7 true =
      Except.ok ((⟨⟨7⟩, ⟨some ⟨5⟩, [(k7, Node.leaf 3)]⟩, []⟩ :
        PersistenceCommand).patch.nodes.lookup k7) :=
  ⟨⟨rfl, rfl⟩,
    ((c3_try_tree_node_spec (fun _ _ => Except.ok none) db7 k7 true).2 rfl).1
      ⟨⟨7⟩, ⟨some ⟨5⟩, [(k7, Node.leaf 3)]⟩, []⟩ rfl⟩

/-- Mapping a binary function over a list zipped with its own image. -/
theorem zip_map_map {κ β γ : Type} (keys : List κ) (g : κ → β) (f : κ × β → γ) :
    (keys.zip (keys.map g)).map f = keys.map (fun k => f (k, g k)) := by
  induction keys with
  | nil => rfl
  | cons k ks ih => simp [List.zip_cons_cons, ih]

/-- The first (overlay) pass of `tree_nodes`: folding the commands
newest-first with first-hit-wins is pointwise `findSome?` on the reversed
queue. -/
theorem overlay_foldl_eq (keys : List (NodeKey × Bool)) :
    ∀ (l : List PersistenceCommand) (g : NodeKey × Bool → Option Node),
      l.foldl (overlay_step keys) (keys.map g) =
      keys.map fun k =>
        match g k with
        | some n => some n
        | none => l.findSome? fun c => c.patch.nodes.lookup k.1 := by
  intro l
  induction l with
  | nil =>
    intro g
    simp only [List.foldl_nil, List.findSome?_nil]
    refine (List.map_congr_left fun k _ => ?_).symm
    rcases g k with _ | n <;> rfl
  | cons c l ih =>
    intro g
    have hacc : overlay_step keys (keys.map g) c =
        keys.map fun k =>
          match g k with
          | some n => some n
          | none => c.patch.nodes.lookup k.1 := by
      unfold overlay_step
      rw [zip_map_map]
    rw [List.foldl_cons, hacc, ih]
    refine List.map_congr_left fun k _ => ?_
    rcases hg : g k with _ | n
    · rcases hl : c.patch.nodes.lookup k.1 with _ | n2 <;>
        simp [List.findSome?_cons, hl]
    · rfl

/-- Setting at the junction of an append. -/
theorem set_append_length {β : Type} (pre : List β) (b v : β) (rest : List β) :
    (pre ++ b :: rest).set pre.length v = pre ++ v :: rest := by
  induction pre with
  | nil => rfl
  | cons a pre ih => simp [ih]

/-- Lookups past the junction do not depend on the junction element. -/
theorem get?_append_after {β : Type} (pre : List β) (b b' : β) (rest : List β)
    (j : Nat) (hj : pre.length + 1 ≤ j) :
    (pre ++ b :: rest).get? j = (pre ++ b' :: rest).get? j := by
  rw [List.get?_eq_getElem?, List.get?_eq_getElem?, List.getElem?_append,
    List.getElem?_append, if_neg (by omega), if_neg (by omega)]
  rcases hd : j - pre.length with _ | j'
  · omega
  · simp

/-- Lookup at the junction of an append. -/
theorem get?_append_length {β : Type} (pre : List β) (b : β) (rest : List β) :
    (pre ++ b :: rest).get? pre.length = some b := by
  rw [List.get?_eq_getElem?, List.getElem?_append, if_neg (by omega)]
  simp

/-- The scatter (second) pass of `tree_nodes`: loading the missing keys and
writing them back by index replaces exactly the unresolved entries. -/
theorem scatter_eq {κ : Type} (φ : κ → Option Node) :
    ∀ (ks : List κ) (pre base : List (Option Node)), base.length = ks.length →
      (((((List.range' pre.length ks.length).zip ks).filter
            (fun ik => (((pre ++ base).get? ik.1).getD none).isNone)).map
              (fun ik => ik.1)).zip
          (((((List.range' pre.length ks.length).zip ks).filter
            (fun ik => (((pre ++ base).get? ik.1).getD none).isNone)).map
              (fun ik => ik.2)).map φ)).foldl
        (fun ns inode => ns.set inode.1 inode.2) (pre ++ base) =
      pre ++ (ks.zip base).map fun kb =>
        match kb.2 with
        | some n => some n
        | none => φ kb.1 := by
  intro ks
  induction ks with
  | nil =>
    intro pre base hlen
    have hb : base = [] := List.length_eq_zero.mp (by simpa using hlen)
    subst hb
    simp
  | cons k ks ih =>
    intro pre base hlen
    rcases base with _ | ⟨b, base'⟩
    · simp at hlen
    · simp only [List.length_cons] at hlen
      have hlen' : base'.length = ks.length := by omega
      simp only [List.length_cons]
      rw [List.range'_succ, List.zip_cons_cons, List.filter_cons,
        get?_append_length]
      rcases b with _ | n
      · -- unresolved head: it is set to the inner value
        simp only [Option.getD_some, Option.isNone_none, if_pos]
        rw [List.map_cons, List.map_cons, List.map_cons, List.zip_cons_cons,
          List.foldl_cons, set_append_length]
        have happ : pre ++ (φ k) :: base' = (pre ++ [φ k]) ++ base' := by simp
        have hlenp : pre.length + 1 = (pre ++ [φ k]).length := by simp
        have hfilter :
            ((List.range' (pre.length + 1) ks.length).zip ks).filter
              (fun ik => (((pre ++ none :: base').get? ik.1).getD none).isNone) =
            ((List.range' (pre.length + 1) ks.length).zip ks).filter
              (fun ik => ((((pre ++ [φ k]) ++ base').get? ik.1).getD none).isNone) := by
          apply List.filter_congr
          intro ik hik
          have hfst : ik.1 ∈ List.range' (pre.length + 1) ks.length :=
            (List.of_mem_zip hik).1
          have hge : pre.length + 1 ≤ ik.1 := by
            have := List.mem_range'_1.mp hfst
            omega
          rw [show (pre ++ [φ k]) ++ base' = pre ++ (φ k) :: base' from by simp]
          rw [get?_append_after pre none (φ k) base' ik.1 hge]
        rw [hfilter, happ, hlenp, ih (pre ++ [φ k]) base' hlen']
        simp
      · -- already resolved head: untouched
        simp only [Option.getD_some, Option.isNone_some, Bool.false_eq_true, if_false]
        have happ : pre ++ (some n) :: base' = (pre ++ [some n]) ++ base' := by simp
        have hlenp : pre.length + 1 = (pre ++ [some n]).length := by simp
        rw [happ, hlenp, ih (pre ++ [some n]) base' hlen']
        simp

/-- The index-directed scatter never changes the length of the vector. -/
theorem foldl_set_length {β : Type} :
    ∀ (ps : List (Nat × β)) (l : List β),
      (ps.foldl (fun ns inode => ns.set inode.1 inode.2) l).length = l.length := by
  intro ps
  induction ps with
  | nil => intro l; rfl
  | cons p ps ih => intro l; rw [List.foldl_cons, ih, List.length_set]

/-- `scatter_eq` specialised to an empty prefix, matching the shape of the
second pass of `tree_nodes` literally. -/
theorem scatter_eq_zero {κ : Type} (φ : κ → Option Node) (ks : List κ)
    (base : List (Option Node)) (hlen : base.length = ks.length) :
    (((((List.range ks.length).zip ks).filter
          (fun ik => ((base.get? ik.1).getD none).isNone)).map
            (fun ik => ik.1)).zip
        (((((List.range ks.length).zip ks).filter
          (fun ik => ((base.get? ik.1).getD none).isNone)).map
            (fun ik => ik.2)).map φ)).foldl
      (fun ns inode => ns.set inode.1 inode.2) base =
    (ks.zip base).map fun kb =>
      match kb.2 with
      | some n => some n
      | none => φ kb.1 := by
  rw [List.range_eq_range']
  exact scatter_eq φ ks [] base hlen

/-- C9: `tree_nodes` returns a vector of the same length as the key list,
and (when the inner store's batch lookup acts pointwise, as a key-value
store does) the entry for `keys[i]` is the node stored for that key in the
newest queued command containing it, or the inner store's answer for that
key if no queued patch contains it. -/
theorem c9_tree_nodes_spec
    (inner_batch : List (NodeKey × Bool) → List (Option Node))
    (db : ParallelDatabase) (keys : List (NodeKey × Bool)) :
    (tree_nodes inner_batch db keys).length = keys.length ∧
    ∀ φ : NodeKey × Bool → Option Node,
      (∀ ks, inner_batch ks = ks.map φ) →
      tree_nodes inner_batch db keys =
        keys.map fun k =>
          match newest_command_with_key db.commands k.1 with
          | some c => c.patch.nodes.lookup k.1
          | none => φ k := by
  have hov : db.commands.reverse.foldl (overlay_step keys)
      (keys.map (fun _ => none)) =
      keys.map fun k =>
        match newest_command_with_key db.commands k.1 with
        | some c => c.patch.nodes.lookup k.1
        | none => none := by
    rw [overlay_foldl_eq keys db.commands.reverse (fun _ => none)]
    refine List.map_congr_left fun k _ => ?_
    show db.commands.reverse.findSome? (fun c => c.patch.nodes.lookup k.1) = _
    rw [findSome?_reverse_eq_getLast? (fun c => c.patch.nodes.lookup k.1)
      db.commands]
    have hfe : (db.commands.filter
        (fun c => (c.patch.nodes.lookup k.1).isSome)).getLast? =
        newest_command_with_key db.commands k.1 := rfl
    rw [hfe]
    rcases newest_command_with_key db.commands k.1 with _ | c <;> rfl
  have htn : tree_nodes inner_batch db keys =
      (((((List.range keys.length).zip keys).filter
            (fun ik => (((db.commands.reverse.foldl (overlay_step keys)
                (keys.map (fun _ => none))).get? ik.1).getD none).isNone)).map
              (fun ik => ik.1)).zip
          (inner_batch ((((List.range keys.length).zip keys).filter
            (fun ik => (((db.commands.reverse.foldl (overlay_step keys)
                (keys.map (fun _ => none))).get? ik.1).getD none).isNone)).map
              (fun ik => ik.2)))).foldl
        (fun ns inode => ns.set inode.1 inode.2)
        (db.commands.reverse.foldl (overlay_step keys)
          (keys.map (fun _ => none))) := rfl
  rw [hov] at htn
  constructor
  · rw [htn, foldl_set_length, List.length_map]
  · intro φ hφ
    rw [htn, hφ, scatter_eq_zero φ keys, zip_map_map]
    · refine List.map_congr_left fun k _ => ?_
      rcases hnc : newest_command_with_key db.commands k.1 with _ | c
      · simp [hnc]
      · obtain ⟨n, hn⟩ := Option.isSome_iff_exists.mp
          (newest_command_lookup_isSome db.commands k.1 c hnc)
        simp [hnc, hn]
    · rw [List.length_map]

theorem c9_witness :
    (tree_nodes (fun l => l.map (fun _ => (none : Option Node))) db7
        [(k7, true), ((⟨8, 0⟩ : NodeKey), false)]).length = 2 ∧
    tree_nodes (fun l => l.map (fun _ => (none : Option Node))) db7
        [(k7, true), ((⟨8, 0⟩ : NodeKey), false)] =
      [some (Node.leaf 3), none] :=
  ⟨by
    rw [(c9_tree_nodes_spec (fun l => l.map (fun _ => none)) db7
      [(k7, true), ((⟨8, 0⟩ : NodeKey), false)]).1]
    rfl,
   by
    rw [(c9_tree_nodes_spec (fun l => l.map (fun _ => none)) db7
      [(k7, true), ((⟨8, 0⟩ : NodeKey), false)]).2 (fun _ => none)
      (fun ks => rfl)]
    decide⟩

/-- C6: `apply_patch` succeeds exactly when the spec's preconditions hold —
the patch's `updated_version` (if present) equals the wrapper's fixed
version with a singleton patch for it, a patch without `updated_version`
carries no per-version patches, and the stale keys are empty or a singleton
for the tracked version — and on success it enqueues one command built from
the patch at the back of the (garbage-collected) queue. -/
theorem c6_apply_patch_safety (inflight : PersistenceCommand → Bool)
    (db : ParallelDatabase) (patch : PatchSet) :
    ((apply_patch inflight true db patch).isSome ↔
      apply_patch_preconditions db patch) ∧
    (∀ db', apply_patch inflight true db patch = some db' →
      db'.updated_version = db.updated_version ∧
      ∃ cmd, cmd.manifest = patch.manifest ∧
        cmd.stale_keys =
          (patch.stale_keys_by_version.lookup db.updated_version).getD [] ∧
        (match patch.updated_version with
         | some uv =>
           patch.patches_by_version.lookup uv = some cmd.patch ∧
             db'.commands = db.commands.filter inflight ++ [cmd]
         | none =>
           cmd.patch = PartialPatchSet.empty ∧
             db'.commands = db.commands ++ [cmd])) := by
  constructor
  · rcases hup : patch.updated_version with _ | uv
    · by_cases hpe : patch.patches_by_version = []
      · by_cases hs : patch.stale_keys_by_version = [] ∨
            (patch.stale_keys_by_version.length = 1 ∧
              (patch.stale_keys_by_version.lookup db.updated_version).isSome)
        · simp [apply_patch, apply_patch_preconditions, hup, hpe, hs]
        · simp [apply_patch, apply_patch_preconditions, hup, hpe, hs]
      · simp [apply_patch, apply_patch_preconditions, hup, hpe]
    · by_cases hv : uv = db.updated_version
      · subst hv
        by_cases hl : patch.patches_by_version.length = 1
        · rcases hpl : patch.patches_by_version.lookup db.updated_version with _ | pp
          · simp [apply_patch, apply_patch_preconditions, hup, hl, hpl,
              -List.lookup_isSome_iff]
          · by_cases hs : patch.stale_keys_by_version = [] ∨
                (patch.stale_keys_by_version.length = 1 ∧
                  (patch.stale_keys_by_version.lookup db.updated_version).isSome)
            · simp [apply_patch, apply_patch_preconditions, hup, hl, hpl, hs,
                -List.lookup_isSome_iff]
            · simp [apply_patch, apply_patch_preconditions, hup, hl, hpl, hs,
                -List.lookup_isSome_iff]
        · simp [apply_patch, apply_patch_preconditions, hup, hl,
            -List.lookup_isSome_iff]
      · simp [apply_patch, apply_patch_preconditions, hup, hv,
          -List.lookup_isSome_iff]
  · intro db' hdb
    rcases hup : patch.updated_version with _ | uv
    · by_cases hpe : patch.patches_by_version = []
      · by_cases hs : patch.stale_keys_by_version = [] ∨
            (patch.stale_keys_by_version.length = 1 ∧
              (patch.stale_keys_by_version.lookup db.updated_version).isSome)
        · have h1 : apply_patch inflight true db patch =
              some { db with commands := db.commands ++
                [⟨patch.manifest, PartialPatchSet.empty,
                  (patch.stale_keys_by_version.lookup
                    db.updated_version).getD []⟩] } := by
            simp [apply_patch, hup, hpe, hs, -List.lookup_isSome_iff]
          rw [h1] at hdb
          obtain rfl := Option.some.inj hdb
          refine ⟨rfl, ⟨patch.manifest, PartialPatchSet.empty,
            (patch.stale_keys_by_version.lookup db.updated_version).getD []⟩,
            rfl, rfl, ?_⟩
          simp [hup]
        · simp [apply_patch, hup, hpe, hs, -List.lookup_isSome_iff] at hdb
      · simp [apply_patch, hup, hpe, -List.lookup_isSome_iff] at hdb
    · by_cases hv : uv = db.updated_version
      · subst hv
        by_cases hl : patch.patches_by_version.length = 1
        · rcases hpl : patch.patches_by_version.lookup db.updated_version with _ | pp
          · simp [apply_patch, hup, hl, hpl, -List.lookup_isSome_iff] at hdb
          · by_cases hs : patch.stale_keys_by_version = [] ∨
                (patch.stale_keys_by_version.length = 1 ∧
                  (patch.stale_keys_by_version.lookup db.updated_version).isSome)
            · have h1 : apply_patch inflight true db patch =
                  some { db with commands := db.commands.filter inflight ++
                    [⟨patch.manifest, pp,
                      (patch.stale_keys_by_version.lookup
                        db.updated_version).getD []⟩] } := by
                simp [apply_patch, hup, hl, hpl, hs, -List.lookup_isSome_iff]
              rw [h1] at hdb
              obtain rfl := Option.some.inj hdb
              refine ⟨rfl, ⟨patch.manifest, pp,
                (patch.stale_keys_by_version.lookup
                  db.updated_version).getD []⟩,
                rfl, rfl, ?_⟩
              simp [hup, hpl]
            · simp [apply_patch, hup, hl, hpl, hs, -List.lookup_isSome_iff] at hdb
        · simp [apply_patch, hup, hl, -List.lookup_isSome_iff] at hdb
      · simp [apply_patch, hup, hv, -List.lookup_isSome_iff] at hdb

theorem c6_witness :
    (apply_patch (fun _ => true) true ⟨7, []⟩
      ⟨⟨9⟩, [(7, ⟨some ⟨5⟩, []⟩)], some 7, []⟩).isSome :=
  (c6_apply_patch_safety (fun _ => true) ⟨7, []⟩
      ⟨⟨9⟩, [(7, ⟨some ⟨5⟩, []⟩)], some 7, []⟩).1.mpr
    ⟨⟨rfl, rfl, rfl⟩, Or.inl rfl⟩

/-- C4: along any interleaving of the wrapper (enqueue) and the persistence
worker (serially persisting the oldest pending command, as `run_persistence`
does), the inner store always equals the sequential application of some
prefix of the enqueued commands — and once the queue has drained (the
condition `wait_sync` blocks on), the inner store equals the result of
applying all enqueued patches sequentially in enqueue order. -/
theorem c4_wait_sync_sequential {σ : Type} (applyP : σ → PatchSet → σ)
    (uv : Nat) (init : σ) (s : WorkerState σ)
    (hreach : Relation.ReflTransGen (PersistenceStep applyP uv)
      ⟨init, [], []⟩ s) :
    (∃ applied, s.enqueued = applied ++ s.pending ∧
      s.inner = applied.foldl
        (fun st c => applyP st (reconstituted_patch uv c)) init) ∧
    (s.pending = [] →
      s.inner = s.enqueued.foldl
        (fun st c => applyP st (reconstituted_patch uv c)) init) := by
  have key : ∃ applied, s.enqueued = applied ++ s.pending ∧
      s.inner = applied.foldl
        (fun st c => applyP st (reconstituted_patch uv c)) init := by
    induction hreach with
    | refl => exact ⟨[], rfl, rfl⟩
    | tail hab hstep ih =>
      obtain ⟨applied, h1, h2⟩ := ih
      cases hstep with
      | enqueue c =>
        exact ⟨applied, by simp [h1], h2⟩
      | persist c rest hpend =>
        refine ⟨applied ++ [c], ?_, ?_⟩
        · rw [show (⟨applyP _ (reconstituted_patch uv c), _, rest⟩ :
              WorkerState σ).enqueued = _ from rfl, h1, hpend]
          simp
        · rw [show (⟨applyP _ (reconstituted_patch uv c), _, rest⟩ :
              WorkerState σ).inner = applyP _ (reconstituted_patch uv c)
              from rfl, h2, List.foldl_append]
          rfl
  refine ⟨key, fun hp => ?_⟩
  obtain ⟨applied, h1, h2⟩ := key
  rw [hp, List.append_nil] at h1
  rw [h1]
  exact h2

theorem c4_witness :
    (⟨[reconstituted_patch 7 c0], [c0], []⟩ :
        WorkerState (List PatchSet)).inner =
      List.foldl (fun st c => st ++ [reconstituted_patch 7 c]) [] [c0] :=
  (c4_wait_sync_sequential (fun st p => st ++ [p]) 7 []
      ⟨[reconstituted_patch 7 c0], [c0], []⟩
      (Relation.ReflTransGen.tail
        (Relation.ReflTransGen.tail Relation.ReflTransGen.refl
          (PersistenceStep.enqueue ⟨[], [], []⟩ c0))
        (PersistenceStep.persist ⟨[], [] ++ [c0], [] ++ [c0]⟩ c0 [] rfl))).2
    rfl
